import Mathlib

/-!
Verification of the batch-job scheduling simulator (`lab1/src/main.rs`).

The program schedules a list of jobs (id, arrival time, service time) on `m`
identical cores under three non-preemptive policies: FCFS, SJF and HRRN.
Times are embedded as rationals (`ℚ`); the source's `f64` tolerance `1e-9`
becomes the exact rational `eps`.  Fallible operations (the source's
`.unwrap()` on a minimum over a possibly-empty core array) are embedded in
`Option`; `none` models a panic.  The SJF/HRRN event loop is embedded with
explicit fuel; `runLoop` returns `none` if the fuel is exhausted before the
loop's own exit condition fires, and we prove a concrete fuel bound always
suffices.
-/

/-- The source's floating-point tolerance `1e-9`, as an exact rational. -/
def eps : ℚ := 1 / 1000000000

/-- A job record: `id`, `arrival` (到达时间), `service` (估计运行时间), and the
`start`/`end` times which are unset (`none`) until the job is dispatched.
Mirrors `struct Job` in the source; the source's `end` field is `end_` here
because `end` is a Lean keyword. -/
structure Job where
  id : ℕ
  arrival : ℚ
  service : ℚ
  start : Option ℚ
  end_ : Option ℚ
deriving DecidableEq, Repr

/-- `Job::new`: construct a job with unset `start`/`end`. -/
def Job.new (id : ℕ) (arrival service : ℚ) : Job :=
  ⟨id, arrival, service, none, none⟩

/-- `Job::turnaround`: `end - arrival`, when `end` is set. -/
def Job.turnaround (j : Job) : Option ℚ :=
  j.end_.map fun e => e - j.arrival

/-- `Job::weighted_turnaround`: `turnaround / service` when the turnaround is
defined and `service > 0`, otherwise `None`. -/
def Job.weighted_turnaround (j : Job) : Option ℚ :=
  match j.turnaround with
  | some t => if 0 < j.service then some (t / j.service) else none
  | none => none

/-- The immutable part of a job: `(id, arrival, service)`.  Used to state that
schedulers return exactly the input jobs, with only `start`/`end` changed. -/
def Job.strip (j : Job) : ℕ × ℚ × ℚ :=
  (j.id, j.arrival, j.service)

/-- The job multiset a list of jobs represents, forgetting `start`/`end`. -/
def stripMS (l : List Job) : Multiset (ℕ × ℚ × ℚ) :=
  (l.map Job.strip : List (ℕ × ℚ × ℚ))

/-- `sort_by(|a, b| a.arrival.partial_cmp(&b.arrival)...)`: stable sort by
ascending arrival (the source's `sort_by` is a stable sort; ties keep their
original relative order, as does `List.insertionSort`). -/
def sortByArrival (l : List Job) : List Job :=
  l.insertionSort fun a b => a.arrival ≤ b.arrival

/-- `sort_by(|a, b| a.id.cmp(&b.id))`: stable sort by ascending id. -/
def sortById (l : List Job) : List Job :=
  l.insertionSort fun a b => a.id ≤ b.id

/-- `core_free.iter().enumerate().min_by(...)`: index and value of the first
minimum of the list (Rust's `min_by` returns the first of equal minima, so
ties are broken by the lowest index).  `none` iff the list is empty, in which
case the source's `.unwrap()` panics. -/
def findMinIdx : List ℚ → Option (ℕ × ℚ)
  | [] => none
  | x :: xs =>
    match findMinIdx xs with
    | none => some (0, x)
    | some (i, v) => if v < x then some (i + 1, v) else some (0, x)

/-- `core_free.iter().min_by(...)`: minimum value of a list of times. -/
def minQ : List ℚ → Option ℚ
  | [] => none
  | x :: xs => some (xs.foldl min x)

/-- State threaded through one scheduler invocation: the virtual clock, the
completion list, the ready set, the index of the next not-yet-admitted job in
the arrival-sorted input, and the per-core free times.  `logs` is ghost
instrumentation recording, per core, the `(start, end)` intervals of the jobs
assigned to it (in assignment order); it mirrors exactly the updates
`core_free[idx] = end` and does not influence control flow. -/
structure St where
  time : ℚ
  finished : List Job
  ready : List Job
  idxNext : ℕ
  coreFree : List ℚ
  logs : List (List (ℚ × ℚ))
deriving DecidableEq, Repr

/-- Initial state: clock 0, all cores free at 0, nothing admitted. -/
def initSt (m : ℕ) : St :=
  ⟨0, [], [], 0, List.replicate m 0, List.replicate m []⟩

/-- The annotated job an assignment at clock `time` produces:
`start = max time arrival`, `end = start + service`. -/
def Job.assigned (j : Job) (time : ℚ) : Job :=
  { j with start := some (max time j.arrival), end_ := some (max time j.arrival + j.service) }

/-- One assignment: job `j` starts at `max time arrival` on core `c`; the
job (with its times set) is appended to the completion list, the core's free
time becomes the job's `end`, and the ghost log of core `c` records the
interval. -/
def assignJob (c : ℕ) (time : ℚ) (j : Job) (s : St) : St :=
  { s with
    finished := s.finished ++ [j.assigned time],
    coreFree := s.coreFree.set c (max time j.arrival + j.service),
    logs := s.logs.set c
      (s.logs.getD c [] ++ [(max time j.arrival, max time j.arrival + j.service)]) }

/-- The dispatch loop `for core in free_idxs { ... }`: hand the head of the
(already priority-sorted) ready list to each free core in turn, stopping
early when the ready list empties. -/
def dispatchCores : List ℕ → St → St
  | [], s => s
  | c :: cs, s =>
    match s.ready with
    | [] => s
    | j :: rest => dispatchCores cs ({ assignJob c s.time j s with ready := rest })

/-- The free-core scan: indices whose free time is `≤ time + 1e-9`. -/
def freeIdxs (s : St) : List ℕ :=
  (List.range s.coreFree.length).filter fun i => s.coreFree.getD i 0 ≤ s.time + eps

/-- Jobs admitted at clock `time`: the not-yet-admitted prefix with
`arrival ≤ time` (the source's inner `while` loop). -/
def arrivedNow (all : List Job) (idx : ℕ) (time : ℚ) : List Job :=
  (all.drop idx).takeWhile fun j => j.arrival ≤ time

/-- The admission phase of one loop iteration. -/
def admitPhase (all : List Job) (s : St) : St :=
  { s with
    ready := s.ready ++ arrivedNow all s.idxNext s.time,
    idxNext := s.idxNext + (arrivedNow all s.idxNext s.time).length }

/-- Result of one loop iteration: continue with a new state, or leave the
loop (`break`). -/
inductive BodyRes where
  | cont (s : St)
  | halt (s : St)
deriving DecidableEq, Repr

/-- The clock advance at the end of an iteration (and in the idle branch):
`time = min(next arrival, earliest core free)`, or `break` when neither job
nor core exists. -/
def advanceClock (all : List Job) (s : St) : BodyRes :=
  match (all.get? s.idxNext).map Job.arrival, minQ s.coreFree with
  | some na, some nf => .cont { s with time := min na nf }
  | some na, none => .cont { s with time := na }
  | none, some nf => .cont { s with time := nf }
  | none, none => .halt s

/-- Sorting of the ready set by the policy's priority comparator evaluated at
the current clock (`ready.sort_by(...)` in the source; a stable sort). -/
def sortedReady (prio : ℚ → Job → Job → Bool) (s : St) : St :=
  { s with ready := s.ready.insertionSort fun a b => prio s.time a b = true }

/-- The dispatch section: sort the ready set by the policy's priority at the
current clock, hand jobs to the free cores, then advance the clock. -/
def dispatchSection (all : List Job) (prio : ℚ → Job → Job → Bool) (F : List ℕ)
    (s : St) : BodyRes :=
  advanceClock all (dispatchCores F (sortedReady prio s))

/-- One iteration of the SJF/HRRN event-driven main loop, mirroring the Rust
control flow.  When no core is free and the ready set is non-empty the clock
jumps to the earliest core free time; the `minQ = none` sub-case (an empty
core array) falls through to the dispatch section, exactly as the source's
`if let Some(..)` falls out of its block. -/
def loopBody (all : List Job) (prio : ℚ → Job → Job → Bool) (s0 : St) : BodyRes :=
  let s := admitPhase all s0
  match freeIdxs s, s.ready with
  | [], _ :: _ =>
    match minQ s.coreFree with
    | some nf => .cont { s with time := nf }
    | none => dispatchSection all prio (freeIdxs s) s
  | [], [] => advanceClock all s
  | _ :: _, [] =>
    match all.get? s.idxNext with
    | some j => .cont { s with time := j.arrival }
    | none => .halt s
  | _ :: _, _ :: _ => dispatchSection all prio (freeIdxs s) s

/-- The main loop `while finished.len() < n`, with explicit fuel.  `none`
means the fuel ran out while the loop still wanted to iterate (we prove in
`runLoop_total` that the fuel below never runs out). -/
def runLoop (all : List Job) (prio : ℚ → Job → Job → Bool) : ℕ → St → Option St
  | 0, s => if s.finished.length < all.length then none else some s
  | fuel + 1, s =>
    if s.finished.length < all.length then
      match loopBody all prio s with
      | .cont s' => runLoop all prio fuel s'
      | .halt s' => some s'
    else some s

/-- Fuel that always suffices for `runLoop` (proved in `runLoop_total`). -/
def engineFuel (n m : ℕ) : ℕ :=
  (n + 2) * (n + 2) * (n + m + 2)

/-- The post-loop safety net: any job still in the ready set is assigned to
the earliest-free core (lowest index on ties).  `none` models the panic of
`.unwrap()` on an empty core array. -/
def fallbackLoop : List Job → St → Option St
  | [], s => some s
  | j :: rest, s =>
    match findMinIdx s.coreFree with
    | none => none
    | some (i, ft) => fallbackLoop rest (assignJob i ft j s)

/-- SJF priority: ascending service time. -/
def sjfPrio (_t : ℚ) (a b : Job) : Bool :=
  a.service ≤ b.service

/-- HRRN priority: descending response ratio `(t - arrival + service) / service`
at the current clock `t`. -/
def hrrnPrio (t : ℚ) (a b : Job) : Bool :=
  (t - b.arrival + b.service) / b.service ≤ (t - a.arrival + a.service) / a.service

/-- The shared event-driven engine: sort by arrival, run the main loop, then
run the leftover-ready fallback.  Returns the full final state (including the
ghost per-core logs). -/
def engineRun (prio : ℚ → Job → Job → Bool) (jobs : List Job) (m : ℕ) : Option St :=
  let all := sortByArrival jobs
  (runLoop all prio (engineFuel all.length m) (initSt m)).bind fun s =>
    fallbackLoop s.ready { s with ready := [] }

/-- `schedule_sjf`: the event engine under the SJF priority, results sorted
by id. -/
def schedule_sjf (jobs : List Job) (m : ℕ) : Option (List Job) :=
  (engineRun sjfPrio jobs m).map fun s => sortById s.finished

/-- `schedule_hrrn`: the event engine under the HRRN priority, results sorted
by id. -/
def schedule_hrrn (jobs : List Job) (m : ℕ) : Option (List Job) :=
  (engineRun hrrnPrio jobs m).map fun s => sortById s.finished

/-- One FCFS step: assign job `j` to the earliest-free core (`none` models
the `.unwrap()` panic on an empty core array).  The state's clock is unused
by FCFS; `start = max(arrival, core_free)`. -/
def fcfsStep (s : St) (j : Job) : Option St :=
  (findMinIdx s.coreFree).map fun p => assignJob p.1 p.2 j s

/-- `schedule_fcfs` including the ghost per-core logs: sort by arrival, then
one greedy pass. -/
def fcfsRun (jobs : List Job) (m : ℕ) : Option St :=
  (sortByArrival jobs).foldlM fcfsStep (initSt m)

/-- `schedule_fcfs`: jobs in ascending-arrival order, each assigned to the
earliest-free core.  The result list stays in arrival order (the source does
not re-sort by id). -/
def schedule_fcfs (jobs : List Job) (m : ℕ) : Option (List Job) :=
  (fcfsRun jobs m).map St.finished

/-- The aggregation step of `print_results`: a job is counted iff its
(sentinel-defaulted) turnaround is `≥ 0`; the weighted term is clamped with
`.max(0.0)`, so a job whose weighted turnaround is undefined (sentinel `-1`)
contributes `0` to the weighted sum but still increments the count. -/
def aggStep (acc : ℚ × ℚ × ℚ) (j : Job) : ℚ × ℚ × ℚ :=
  let turn := j.turnaround.getD (-1)
  let wturn := j.weighted_turnaround.getD (-1)
  if 0 ≤ turn then (acc.1 + turn, acc.2.1 + max wturn 0, acc.2.2 + 1) else acc

/-- The averages `print_results` reports: `(mean turnaround, mean weighted
turnaround)` over the counted jobs, or `none` when no job is counted. -/
def printAgg (jobs : List Job) : Option (ℚ × ℚ) :=
  let t := (sortById jobs).foldl aggStep (0, 0, 0)
  if 0 < t.2.2 then some (t.1 / t.2.2, t.2.1 / t.2.2) else none

/-- Modelled from the spec's words (for comparison with `printAgg`, which is
the code's aggregation): "the arithmetic mean of turnaround/service over
exactly the jobs with service > 0 and both start and end set". -/
def specAvgWturn (jobs : List Job) : Option ℚ :=
  let elig := jobs.filter fun j => 0 < j.service ∧ j.start.isSome ∧ j.end_.isSome
  if elig.length = 0 then none
  else some ((elig.map fun j => (j.end_.getD 0 - j.arrival) / j.service).sum / elig.length)

/-- `sample_jobs()`: the worked example's job stream. -/
def sampleJobs : List Job :=
  [Job.new 1 0 3, Job.new 2 2 6, Job.new 3 4 4, Job.new 4 6 5, Job.new 5 8 2]

/-- Is job `j` running at instant `t` (`start ≤ t < end`)? -/
def runningAt (t : ℚ) (j : Job) : Bool :=
  match j.start, j.end_ with
  | some s, some e => s ≤ t ∧ t < e
  | _, _ => false

/-- The free time a core's assignment log implies: the `end` of its last
assigned interval, or `0` if the core never ran a job. -/
def lastEnd (l : List (ℚ × ℚ)) : ℚ :=
  match l.getLast? with
  | none => 0
  | some p => p.2

/-- A job annotated with both times, `end = start + service`, `start ≥ arrival`. -/
def JobWF (j : Job) : Prop :=
  ∃ st, j.start = some st ∧ j.end_ = some (st + j.service) ∧ j.arrival ≤ st

/-- The interval a completed job occupies (its `start`/`end` fields,
defaulting to `0` when unset, which does not happen for scheduler output). -/
def intervalOf (j : Job) : ℚ × ℚ :=
  (j.start.getD 0, j.end_.getD 0)

/-- The engine invariant, preserved by every iteration of the SJF/HRRN main
loop (for any priority function): bookkeeping counts, conservation of the job
multiset, well-formedness of completed jobs, and coherence of the per-core
free times with the ghost assignment logs (each core's tracked free time is
the `end` of its last log entry, and consecutive log entries overlap by at
most `eps`). -/
structure EngInv (all : List Job) (m : ℕ) (s : St) : Prop where
  count : s.finished.length + s.ready.length = s.idxNext
  idx_le : s.idxNext ≤ all.length
  cf_len : s.coreFree.length = m
  logs_len : s.logs.length = m
  conserve : stripMS s.finished + stripMS s.ready + stripMS (all.drop s.idxNext) = stripMS all
  fin_wf : ∀ j ∈ s.finished, JobWF j
  cf_logs : ∀ i < m, s.coreFree.getD i 0 = lastEnd (s.logs.getD i [])
  logs_chain : ∀ i < m, (s.logs.getD i []).Chain' fun p q => p.2 - eps ≤ q.1
  fin_logs : (s.finished.map intervalOf).Perm s.logs.flatten

/-- Nonnegativity invariant (needs every input arrival and service `≥ 0`):
the clock, the core free times and all logged intervals stay nonnegative, and
every logged interval has `start ≤ end`. -/
structure PosInv (s : St) : Prop where
  time0 : 0 ≤ s.time
  cf0 : ∀ x ∈ s.coreFree, 0 ≤ x
  logs0 : ∀ i < s.logs.length, ∀ p ∈ s.logs.getD i [], 0 ≤ p.1 ∧ p.1 ≤ p.2

/-- Count of event points (arrivals and core free times) strictly after the
clock; the third component of the loop's termination measure. -/
def rankE (all : List Job) (s : St) : ℕ :=
  ((all.map Job.arrival) ++ s.coreFree).countP fun e => s.time < e

/-- Termination measure for the main loop: lexicographic in (jobs not yet
finished, jobs not yet admitted, event points after the clock), encoded as a
single natural number. -/
def meas (all : List Job) (s : St) : ℕ :=
  (all.length - s.finished.length) * ((all.length + 1) * (all.length + s.coreFree.length + 2)) +
    (all.length - s.idxNext) * (all.length + s.coreFree.length + 2) + rankE all s

/-- Invariant of the FCFS single pass: per-core coherence of the tracked free
time with the ghost log, exact (no-tolerance) chaining of consecutive log
entries, and well-formedness of emitted jobs. -/
structure FcfsInv (m : ℕ) (s : St) : Prop where
  cf_len : s.coreFree.length = m
  logs_len : s.logs.length = m
  cf_logs : ∀ i < m, s.coreFree.getD i 0 = lastEnd (s.logs.getD i [])
  logs_chain : ∀ i < m, (s.logs.getD i []).Chain' fun p q => p.2 ≤ q.1
  fin_wf : ∀ j ∈ s.finished, JobWF j
  fin_logs : (s.finished.map intervalOf).Perm s.logs.flatten

/-- Nonnegativity invariant for the FCFS pass (needs `service ≥ 0` for the
processed jobs): core free times stay nonnegative and all logged intervals
are nonnegative with `start ≤ end`. -/
structure FcfsPos (s : St) : Prop where
  cf0 : ∀ x ∈ s.coreFree, 0 ≤ x
  logs0 : ∀ i < s.logs.length, ∀ p ∈ s.logs.getD i [], 0 ≤ p.1 ∧ p.1 ≤ p.2

/-- Count of jobs `print_results` includes in its averages: those whose
(sentinel-defaulted) turnaround is nonnegative. -/
def aggCount (jobs : List Job) : ℚ :=
  ((jobs.filter fun j => 0 ≤ j.turnaround.getD (-1)).length : ℚ)

/-- Sum of turnaround times over the counted jobs. -/
def aggTurnSum (jobs : List Job) : ℚ :=
  ((jobs.filter fun j => 0 ≤ j.turnaround.getD (-1)).map fun j => j.turnaround.getD (-1)).sum

/-- Sum of weighted turnarounds over the counted jobs whose service is
positive: jobs with zero or negative service contribute nothing here
although they are counted in `aggCount`. -/
def aggWSum (jobs : List Job) : ℚ :=
  (List.map (fun j => j.weighted_turnaround.getD 0)
    (jobs.filter fun j => decide (0 ≤ j.turnaround.getD (-1)) && decide (0 < j.service))).sum

/-- Arrival order differs from id order here: FCFS output is not id-sorted. -/
def c1jobs : List Job := [Job.new 2 0 1, Job.new 1 5 1]

/-- Two jobs whose arrivals are equal and whose services differ by
`5e-10 < eps`; at `t = 1` core 1 (still busy until `1 + 5e-10`) counts as
free under the tolerance and receives a second job. -/
def c3jobs : List Job :=
  [Job.new 1 0 1, Job.new 2 0 (1 + 5 / 10000000000), Job.new 3 1 (1 / 2),
    Job.new 4 1 (1 / 2)]

/-- Like `c3jobs` but the later jobs have zero service: core 1's tracked free
time regresses from `1 + 5e-10` to `1`. -/
def c9jobs : List Job :=
  [Job.new 1 0 1, Job.new 2 0 (1 + 5 / 10000000000), Job.new 3 1 0, Job.new 4 1 0]

/-- A normal job and a zero-service job, for the metrics aggregation. -/
def c5jobs : List Job := [Job.new 1 0 2, Job.new 2 0 0]

/-- `schedule_fcfs c5jobs 1`, precomputed. -/
def c5out : List Job :=
  [⟨1, 0, 2, some 0, some 2⟩, ⟨2, 0, 0, some 2, some 2⟩]

/-- `schedule_fcfs sampleJobs 1`, precomputed. -/
def fcfsSampleOut : List Job :=
  [⟨1, 0, 3, some 0, some 3⟩, ⟨2, 2, 6, some 3, some 9⟩, ⟨3, 4, 4, some 9, some 13⟩,
    ⟨4, 6, 5, some 13, some 18⟩, ⟨5, 8, 2, some 18, some 20⟩]

/-- The SJF schedule the spec's scenario asserts for `sampleJobs` on one
core: job 3 at `[3,7)`, job 4 at `[7,12)`, job 5 at `[12,14)`, job 2 at
`[14,20)` (in id order). -/
def sjfClaimedOut : List Job :=
  [⟨1, 0, 3, some 0, some 3⟩, ⟨2, 2, 6, some 14, some 20⟩, ⟨3, 4, 4, some 3, some 7⟩,
    ⟨4, 6, 5, some 7, some 12⟩, ⟨5, 8, 2, some 12, some 14⟩]

/-- The SJF schedule the code actually produces for `sampleJobs` on one
core: at `t = 3` only job 2 has arrived (job 3 arrives at `t = 4`), so job 2
runs `[3,9)`, then job 5 `[9,11)`, job 3 `[11,15)`, job 4 `[15,20)`. -/
def sjfActualOut : List Job :=
  [⟨1, 0, 3, some 0, some 3⟩, ⟨2, 2, 6, some 3, some 9⟩, ⟨3, 4, 4, some 11, some 15⟩,
    ⟨4, 6, 5, some 15, some 20⟩, ⟨5, 8, 2, some 9, some 11⟩]

/-! ## Basic lemmas about the helpers -/

instance : IsTotal Job fun a b => a.arrival ≤ b.arrival :=
  ⟨fun a b => le_total a.arrival b.arrival⟩

instance : IsTrans Job fun a b => a.arrival ≤ b.arrival :=
  ⟨fun _ _ _ => le_trans⟩

instance : IsTotal Job fun a b => a.id ≤ b.id :=
  ⟨fun a b => Nat.le_total a.id b.id⟩

instance : IsTrans Job fun a b => a.id ≤ b.id :=
  ⟨fun _ _ _ => Nat.le_trans⟩

theorem strip_set_times (j : Job) (st e : Option ℚ) :
    ({ j with start := st, end_ := e } : Job).strip = j.strip := rfl

theorem stripMS_append (l₁ l₂ : List Job) :
    stripMS (l₁ ++ l₂) = stripMS l₁ + stripMS l₂ := by
  simp [stripMS, Multiset.coe_add]

theorem stripMS_perm {l₁ l₂ : List Job} (h : l₁.Perm l₂) : stripMS l₁ = stripMS l₂ := by
  simpa [stripMS, Multiset.coe_eq_coe] using h.map Job.strip

theorem stripMS_sortByArrival (l : List Job) : stripMS (sortByArrival l) = stripMS l :=
  stripMS_perm (List.perm_insertionSort _ l)

theorem stripMS_sortById (l : List Job) : stripMS (sortById l) = stripMS l :=
  stripMS_perm (List.perm_insertionSort _ l)

theorem length_sortByArrival (l : List Job) : (sortByArrival l).length = l.length :=
  (List.perm_insertionSort _ l).length_eq

theorem mem_of_stripMS_le {l : List Job} {jobs : List Job}
    (h : stripMS l ≤ stripMS jobs) {j : Job} (hj : j ∈ l) :
    ∃ j' ∈ jobs, j.strip = j'.strip := by
  have hmem : j.strip ∈ stripMS l := by
    simp only [stripMS, Multiset.mem_coe, List.mem_map]
    exact ⟨j, hj, rfl⟩
  have hmem' : j.strip ∈ stripMS jobs := Multiset.mem_of_le h hmem
  simp only [stripMS, Multiset.mem_coe, List.mem_map] at hmem'
  obtain ⟨j', hj', he⟩ := hmem'
  exact ⟨j', hj', he.symm⟩

theorem foldl_min_mem : ∀ (xs : List ℚ) (x : ℚ), xs.foldl min x = x ∨ xs.foldl min x ∈ xs
  | [], _ => Or.inl rfl
  | y :: ys, x => by
    rw [List.foldl_cons]
    rcases foldl_min_mem ys (min x y) with h | h
    · rcases min_choice x y with h' | h'
      · left; rw [h, h']
      · right; rw [h, h']; exact List.mem_cons_self _ _
    · right; exact List.mem_cons_of_mem _ h

theorem foldl_min_le : ∀ (xs : List ℚ) (x : ℚ),
    xs.foldl min x ≤ x ∧ ∀ y ∈ xs, xs.foldl min x ≤ y
  | [], x => ⟨le_refl x, by simp⟩
  | y :: ys, x => by
    rw [List.foldl_cons]
    obtain ⟨h1, h2⟩ := foldl_min_le ys (min x y)
    refine ⟨le_trans h1 (min_le_left _ _), ?_⟩
    intro z hz
    rcases List.mem_cons.1 hz with rfl | hz
    · exact le_trans h1 (min_le_right _ _)
    · exact h2 z hz

theorem minQ_spec {l : List ℚ} {v : ℚ} (h : minQ l = some v) :
    v ∈ l ∧ ∀ x ∈ l, v ≤ x := by
  cases l with
  | nil => simp [minQ] at h
  | cons x xs =>
    simp only [minQ, Option.some.injEq] at h
    subst h
    constructor
    · rcases foldl_min_mem xs x with h | h
      · rw [h]; exact List.mem_cons_self _ _
      · exact List.mem_cons_of_mem _ h
    · intro z hz
      rcases List.mem_cons.1 hz with rfl | hz
      · exact (foldl_min_le xs z).1
      · exact (foldl_min_le xs x).2 z hz

theorem minQ_isSome {l : List ℚ} (h : l ≠ []) : (minQ l).isSome := by
  cases l with
  | nil => exact absurd rfl h
  | cons x xs => simp [minQ]

theorem minQ_eq_none {l : List ℚ} (h : minQ l = none) : l = [] := by
  cases l with
  | nil => rfl
  | cons x xs => simp [minQ] at h

theorem findMinIdx_isSome {l : List ℚ} (h : l ≠ []) : (findMinIdx l).isSome := by
  cases l with
  | nil => exact absurd rfl h
  | cons x xs =>
    simp only [findMinIdx]
    cases findMinIdx xs with
    | none => rfl
    | some p =>
      obtain ⟨i, v⟩ := p
      by_cases hv : v < x <;> simp [hv]

theorem findMinIdx_spec :
    ∀ (l : List ℚ) (i : ℕ) (v : ℚ), findMinIdx l = some (i, v) →
      i < l.length ∧ l.getD i 0 = v ∧ (∀ j < l.length, v ≤ l.getD j 0) ∧
        ∀ j < i, v < l.getD j 0
  | [], i, v => by simp [findMinIdx]
  | x :: xs, i, v => by
    intro h
    cases hx : findMinIdx xs with
    | none =>
      have hxs : xs = [] := by
        cases xs with
        | nil => rfl
        | cons y ys =>
          have hs := @findMinIdx_isSome (y :: ys) (by simp)
          rw [hx] at hs
          simp at hs
      subst hxs
      simp only [findMinIdx, Option.some.injEq, Prod.mk.injEq] at h
      obtain ⟨rfl, rfl⟩ := h
      refine ⟨by simp, rfl, ?_, by omega⟩
      intro j hj
      have : j = 0 := by simpa using hj
      subst this
      simp
    | some p =>
      obtain ⟨i', v'⟩ := p
      obtain ⟨hlen, hget, hle, hlt⟩ := findMinIdx_spec xs i' v' hx
      simp only [findMinIdx, hx] at h
      by_cases hv : v' < x
      · rw [if_pos hv] at h
        simp only [Option.some.injEq, Prod.mk.injEq] at h
        obtain ⟨rfl, rfl⟩ := h
        refine ⟨by simpa using hlen, by simpa using hget, ?_, ?_⟩
        · intro j hj
          cases j with
          | zero => simpa using le_of_lt hv
          | succ j' => simpa using hle j' (by simpa using hj)
        · intro j hj
          cases j with
          | zero => simpa using hv
          | succ j' => simpa using hlt j' (by omega)
      · rw [if_neg hv] at h
        simp only [Option.some.injEq, Prod.mk.injEq] at h
        obtain ⟨rfl, rfl⟩ := h
        refine ⟨by simp, by simp, ?_, by omega⟩
        intro j hj
        cases j with
        | zero => simp
        | succ j' =>
          have h1 : v' ≤ xs.getD j' 0 := hle j' (by simpa using hj)
          have h2 : x ≤ xs.getD j' 0 := le_trans (not_lt.1 hv) h1
          simpa using h2

theorem eps_pos : 0 < eps := by norm_num [eps]

theorem mem_freeIdxs {s : St} {i : ℕ} :
    i ∈ freeIdxs s ↔ i < s.coreFree.length ∧ s.coreFree.getD i 0 ≤ s.time + eps := by
  simp [freeIdxs, List.mem_filter, List.mem_range]

theorem freeIdxs_nodup (s : St) : (freeIdxs s).Nodup :=
  (List.nodup_range _).filter _

theorem freeIdxs_eq_nil_iff {s : St} :
    freeIdxs s = [] ↔ ∀ x ∈ s.coreFree, s.time + eps < x := by
  constructor
  · intro h x hx
    obtain ⟨i, hi, hget⟩ := List.getElem_of_mem hx
    by_contra hlt
    have : i ∈ freeIdxs s := mem_freeIdxs.2 ⟨hi, by
      rw [List.getD_eq_getElem?_getD, List.getElem?_eq_getElem hi]
      simpa [hget] using not_lt.1 hlt⟩
    rw [h] at this
    simp at this
  · intro h
    by_contra hne
    obtain ⟨i, hi⟩ := List.exists_mem_of_ne_nil _ hne
    obtain ⟨hlen, hle⟩ := mem_freeIdxs.1 hi
    have hx : s.coreFree.getD i 0 ∈ s.coreFree := by
      rw [List.getD_eq_getElem?_getD, List.getElem?_eq_getElem hlen]
      exact List.getElem_mem _
    exact absurd hle (not_le.2 (h _ hx))

theorem drop_length_takeWhile {α : Type _} (p : α → Bool) :
    ∀ l : List α, l.drop (l.takeWhile p).length = l.dropWhile p
  | [] => rfl
  | a :: l => by
    by_cases h : p a
    · rw [List.takeWhile_cons_of_pos h, List.dropWhile_cons_of_pos h]
      simpa using drop_length_takeWhile p l
    · rw [List.takeWhile_cons_of_neg h, List.dropWhile_cons_of_neg h]
      rfl

theorem drop_arrivedNow (all : List Job) (idx : ℕ) (t : ℚ) :
    all.drop (idx + (arrivedNow all idx t).length) =
      (all.drop idx).dropWhile fun j => j.arrival ≤ t := by
  rw [← List.drop_drop]
  exact drop_length_takeWhile _ (all.drop idx)

theorem length_arrivedNow_le (all : List Job) (idx : ℕ) (t : ℚ) :
    (arrivedNow all idx t).length ≤ all.length - idx := by
  calc (arrivedNow all idx t).length ≤ (all.drop idx).length :=
        (List.takeWhile_prefix _).length_le
    _ = all.length - idx := List.length_drop idx all

theorem head_dropWhile_not {α : Type _} (p : α → Bool) :
    ∀ (l : List α) {a : α}, (l.dropWhile p).head? = some a → p a = false
  | [], a => by simp [List.dropWhile]
  | b :: l, a => by
    by_cases h : p b
    · rw [List.dropWhile_cons_of_pos h]
      exact head_dropWhile_not p l
    · rw [List.dropWhile_cons_of_neg h]
      intro hb
      obtain rfl : b = a := by simpa using hb
      simpa using h

theorem get?_after_arrived {all : List Job} {idx : ℕ} {t : ℚ} {j : Job}
    (h : all.get? (idx + (arrivedNow all idx t).length) = some j) : t < j.arrival := by
  have h0 : (all.drop (idx + (arrivedNow all idx t).length)).head? = some j := by
    rw [← List.get?_zero, List.get?_drop, Nat.add_zero]
    exact h
  rw [drop_arrivedNow] at h0
  have := head_dropWhile_not _ _ h0
  simpa using this

theorem mem_arrivedNow_arrival {all : List Job} {idx : ℕ} {t : ℚ} {j : Job}
    (h : j ∈ arrivedNow all idx t) : j.arrival ≤ t := by
  have := List.mem_takeWhile_imp h
  simpa using this

/-! ## Shape of one loop iteration -/

theorem advanceClock_shape (all : List Job) (s : St) :
    (∃ t, advanceClock all s = .cont { s with time := t }) ∨
      advanceClock all s = .halt s := by
  unfold advanceClock
  rcases (all.get? s.idxNext).map Job.arrival with _ | na <;>
    rcases h : minQ s.coreFree with _ | nf
  · right; rfl
  · left; exact ⟨nf, rfl⟩
  · left; exact ⟨na, rfl⟩
  · left; exact ⟨min na nf, rfl⟩

theorem dispatchSection_eq (all : List Job) (prio : ℚ → Job → Job → Bool)
    (F : List ℕ) (s : St) :
    dispatchSection all prio F s =
      advanceClock all (dispatchCores F (sortedReady prio s)) := rfl

theorem sortedReady_perm (prio : ℚ → Job → Job → Bool) (s : St) :
    (sortedReady prio s).ready.Perm s.ready :=
  List.perm_insertionSort _ _

theorem sortedReady_ne_nil {prio : ℚ → Job → Job → Bool} {s : St} (h : s.ready ≠ []) :
    (sortedReady prio s).ready ≠ [] := by
  intro hnil
  have := (sortedReady_perm prio s).length_eq
  rw [hnil] at this
  exact h (List.length_eq_zero.1 this.symm)

theorem loopBody_cases (all : List Job) (prio : ℚ → Job → Job → Bool) (s0 : St) :
    (∃ nf, minQ (admitPhase all s0).coreFree = some nf ∧
        freeIdxs (admitPhase all s0) = [] ∧ (admitPhase all s0).ready ≠ [] ∧
        loopBody all prio s0 = .cont { admitPhase all s0 with time := nf }) ∨
    (freeIdxs (admitPhase all s0) ≠ [] ∧ (admitPhase all s0).ready = [] ∧
      ∃ j, all.get? (admitPhase all s0).idxNext = some j ∧
        loopBody all prio s0 = .cont { admitPhase all s0 with time := j.arrival }) ∨
    (freeIdxs (admitPhase all s0) ≠ [] ∧ (admitPhase all s0).ready = [] ∧
      all.get? (admitPhase all s0).idxNext = none ∧
      loopBody all prio s0 = .halt (admitPhase all s0)) ∨
    (freeIdxs (admitPhase all s0) = [] ∧ (admitPhase all s0).ready = [] ∧
      loopBody all prio s0 = advanceClock all (admitPhase all s0)) ∨
    ((admitPhase all s0).ready ≠ [] ∧
      (freeIdxs (admitPhase all s0) ≠ [] ∨ minQ (admitPhase all s0).coreFree = none) ∧
      loopBody all prio s0 =
        dispatchSection all prio (freeIdxs (admitPhase all s0)) (admitPhase all s0)) := by
  have hb : loopBody all prio s0 =
      match freeIdxs (admitPhase all s0), (admitPhase all s0).ready with
      | [], _ :: _ =>
        match minQ (admitPhase all s0).coreFree with
        | some nf => .cont { admitPhase all s0 with time := nf }
        | none => dispatchSection all prio (freeIdxs (admitPhase all s0)) (admitPhase all s0)
      | [], [] => advanceClock all (admitPhase all s0)
      | _ :: _, [] =>
        match all.get? (admitPhase all s0).idxNext with
        | some j => .cont { admitPhase all s0 with time := j.arrival }
        | none => .halt (admitPhase all s0)
      | _ :: _, _ :: _ =>
        dispatchSection all prio (freeIdxs (admitPhase all s0)) (admitPhase all s0) := rfl
  rcases hF : freeIdxs (admitPhase all s0) with _ | ⟨c, cs⟩ <;>
    rcases hR : (admitPhase all s0).ready with _ | ⟨j, js⟩
  · right; right; right; left
    refine ⟨rfl, rfl, ?_⟩
    rw [hb, hF, hR]
  · rcases hm : minQ (admitPhase all s0).coreFree with _ | nf
    · right; right; right; right
      refine ⟨by simp [hR], Or.inr rfl, ?_⟩
      rw [hb, hF, hR, hm]
    · left
      refine ⟨nf, rfl, rfl, by simp [hR], ?_⟩
      rw [hb, hF, hR, hm]
  · rcases hg : all.get? (admitPhase all s0).idxNext with _ | j'
    · right; right; left
      refine ⟨by simp [hF], rfl, rfl, ?_⟩
      rw [hb, hF, hR, hg]
    · right; left
      refine ⟨by simp [hF], rfl, j', rfl, ?_⟩
      rw [hb, hF, hR, hg]
  · right; right; right; right
    refine ⟨by simp [hR], Or.inl (by simp [hF]), ?_⟩
    rw [hb, hF, hR]

/-! ## Elementary facts about `dispatchCores` and `assignJob` -/

theorem assignJob_time (c : ℕ) (t : ℚ) (j : Job) (s : St) :
    (assignJob c t j s).time = s.time := rfl

theorem assignJob_ready (c : ℕ) (t : ℚ) (j : Job) (s : St) :
    (assignJob c t j s).ready = s.ready := rfl

theorem assignJob_idxNext (c : ℕ) (t : ℚ) (j : Job) (s : St) :
    (assignJob c t j s).idxNext = s.idxNext := rfl

theorem dispatchCores_time : ∀ (cs : List ℕ) (s : St), (dispatchCores cs s).time = s.time
  | [], s => rfl
  | c :: cs, s => by
    unfold dispatchCores
    cases s.ready with
    | nil => rfl
    | cons j rest => rw [dispatchCores_time cs]; rfl

theorem dispatchCores_idxNext :
    ∀ (cs : List ℕ) (s : St), (dispatchCores cs s).idxNext = s.idxNext
  | [], s => rfl
  | c :: cs, s => by
    unfold dispatchCores
    cases s.ready with
    | nil => rfl
    | cons j rest => rw [dispatchCores_idxNext cs]; rfl

theorem dispatchCores_cf_len :
    ∀ (cs : List ℕ) (s : St), (dispatchCores cs s).coreFree.length = s.coreFree.length
  | [], s => rfl
  | c :: cs, s => by
    unfold dispatchCores
    cases s.ready with
    | nil => rfl
    | cons j rest =>
      rw [dispatchCores_cf_len cs]
      simp [assignJob]

theorem dispatchCores_fin_mono :
    ∀ (cs : List ℕ) (s : St), s.finished.length ≤ (dispatchCores cs s).finished.length
  | [], s => le_refl _
  | c :: cs, s => by
    unfold dispatchCores
    cases s.ready with
    | nil => exact le_refl _
    | cons j rest =>
      refine le_trans ?_ (dispatchCores_fin_mono cs _)
      simp [assignJob]

theorem dispatchCores_fin_strict (c : ℕ) (cs : List ℕ) (s : St) (h : s.ready ≠ []) :
    s.finished.length < (dispatchCores (c :: cs) s).finished.length := by
  unfold dispatchCores
  cases hr : s.ready with
  | nil => exact absurd hr h
  | cons j rest =>
    refine lt_of_lt_of_le ?_ (dispatchCores_fin_mono cs _)
    simp [assignJob]

/-! ## Preservation of the engine invariant -/

theorem stripMS_cons (j : Job) (l : List Job) :
    stripMS (j :: l) = j.strip ::ₘ stripMS l := rfl

theorem lastEnd_append_single (l : List (ℚ × ℚ)) (p : ℚ × ℚ) :
    lastEnd (l ++ [p]) = p.2 := by
  simp [lastEnd, List.getLast?_append]

theorem getD_set_self {l : List ℚ} {i : ℕ} (h : i < l.length) (a : ℚ) :
    (l.set i a).getD i 0 = a := by
  rw [List.getD_eq_getElem?_getD, List.getElem?_set_self h]
  rfl

theorem getD_set_ne {l : List ℚ} {i j : ℕ} (h : i ≠ j) (a : ℚ) :
    (l.set i a).getD j 0 = l.getD j 0 := by
  rw [List.getD_eq_getElem?_getD, List.getElem?_set_ne h, ← List.getD_eq_getElem?_getD]

theorem getD_set_self_logs {l : List (List (ℚ × ℚ))} {i : ℕ} (h : i < l.length)
    (a : List (ℚ × ℚ)) : (l.set i a).getD i [] = a := by
  rw [List.getD_eq_getElem?_getD, List.getElem?_set_self h]
  rfl

theorem getD_set_ne_logs {l : List (List (ℚ × ℚ))} {i j : ℕ} (h : i ≠ j)
    (a : List (ℚ × ℚ)) : (l.set i a).getD j [] = l.getD j [] := by
  rw [List.getD_eq_getElem?_getD, List.getElem?_set_ne h, ← List.getD_eq_getElem?_getD]

theorem engInv_time {all : List Job} {m : ℕ} {s : St} (h : EngInv all m s) (t : ℚ) :
    EngInv all m { s with time := t } :=
  ⟨h.count, h.idx_le, h.cf_len, h.logs_len, h.conserve, h.fin_wf, h.cf_logs, h.logs_chain,
    h.fin_logs⟩

theorem engInv_admitPhase {all : List Job} {m : ℕ} {s : St} (h : EngInv all m s) :
    EngInv all m (admitPhase all s) := by
  have hsplit : stripMS (all.drop s.idxNext) =
      stripMS (arrivedNow all s.idxNext s.time) +
        stripMS (all.drop (s.idxNext + (arrivedNow all s.idxNext s.time).length)) := by
    rw [← stripMS_append, drop_arrivedNow]
    unfold arrivedNow
    rw [List.takeWhile_append_dropWhile]
  constructor
  · simp only [admitPhase, List.length_append]
    have := h.count
    omega
  · simp only [admitPhase]
    have h1 := length_arrivedNow_le all s.idxNext s.time
    have h2 := h.idx_le
    omega
  · exact h.cf_len
  · exact h.logs_len
  · simp only [admitPhase, stripMS_append]
    rw [← h.conserve, hsplit]
    abel
  · exact h.fin_wf
  · exact h.cf_logs
  · exact h.logs_chain
  · exact h.fin_logs

theorem engInv_ready_perm {all : List Job} {m : ℕ} {s : St} {r : List Job}
    (hperm : r.Perm s.ready) (h : EngInv all m s) : EngInv all m { s with ready := r } := by
  constructor
  · simpa [hperm.length_eq] using h.count
  · exact h.idx_le
  · exact h.cf_len
  · exact h.logs_len
  · simpa [stripMS_perm hperm] using h.conserve
  · exact h.fin_wf
  · exact h.cf_logs
  · exact h.logs_chain
  · exact h.fin_logs

theorem flatten_set_append {α : Type _} :
    ∀ (L : List (List α)) (c : ℕ) (x : α), c < L.length →
      ((L.set c (L.getD c [] ++ [x])).flatten).Perm (L.flatten ++ [x])
  | [], c, x => by simp
  | l :: L, 0, x => by
    intro _
    simp only [List.set_cons_zero, List.getD_cons_zero, List.flatten_cons]
    rw [List.append_assoc, List.append_assoc]
    exact List.Perm.append_left l List.perm_append_comm
  | l :: L, c + 1, x => by
    intro hc
    simp only [List.set_cons_succ, List.getD_cons_succ, List.flatten_cons]
    have ih := flatten_set_append L c x (by simpa using hc)
    rw [List.append_assoc]
    exact List.Perm.append_left l ih

theorem engInv_dispatchCores {all : List Job} {m : ℕ} :
    ∀ (cs : List ℕ) (s : St), EngInv all m s →
      (∀ c ∈ cs, c < m ∧ s.coreFree.getD c 0 ≤ s.time + eps) → cs.Nodup →
      EngInv all m (dispatchCores cs s)
  | [], s => fun h _ _ => h
  | c :: cs, s => by
    intro inv hfree hnd
    unfold dispatchCores
    cases hr : s.ready with
    | nil => exact inv
    | cons j rest =>
      obtain ⟨hcm, hcfree⟩ := hfree c (List.mem_cons_self _ _)
      have hclen : c < s.coreFree.length := by rw [inv.cf_len]; exact hcm
      have hllen : c < s.logs.length := by rw [inv.logs_len]; exact hcm
      have hstep : EngInv all m { assignJob c s.time j s with ready := rest } := by
        constructor
        · have hcount := inv.count
          rw [hr] at hcount
          have hfin : ({ assignJob c s.time j s with ready := rest }).finished.length =
              s.finished.length + 1 := by
            simp [assignJob]
          have hready : ({ assignJob c s.time j s with ready := rest }).ready.length =
              rest.length := rfl
          have hidx : ({ assignJob c s.time j s with ready := rest }).idxNext =
              s.idxNext := rfl
          rw [hfin, hready, hidx]
          simp only [List.length_cons] at hcount
          omega
        · exact inv.idx_le
        · simp only [assignJob, List.length_set]
          exact inv.cf_len
        · simp only [assignJob, List.length_set]
          exact inv.logs_len
        · have hc := inv.conserve
          rw [hr, stripMS_cons, ← Multiset.singleton_add] at hc
          simp only [assignJob, stripMS_append]
          have hsing : stripMS [j.assigned s.time] = {j.strip} := rfl
          rw [hsing, ← hc]
          abel
        · intro j' hj'
          simp only [assignJob, List.mem_append, List.mem_singleton] at hj'
          rcases hj' with hj' | rfl
          · exact inv.fin_wf j' hj'
          · exact ⟨max s.time j.arrival, rfl, rfl, le_max_right _ _⟩
        · intro i him
          by_cases hic : i = c
          · subst hic
            simp only [assignJob]
            rw [getD_set_self hclen, getD_set_self_logs hllen, lastEnd_append_single]
          · simp only [assignJob]
            rw [getD_set_ne (fun hh => hic hh.symm), getD_set_ne_logs (fun hh => hic hh.symm)]
            exact inv.cf_logs i him
        · intro i him
          by_cases hic : i = c
          · subst hic
            simp only [assignJob]
            rw [getD_set_self_logs hllen]
            rw [List.chain'_append]
            refine ⟨inv.logs_chain i him, List.chain'_singleton _, ?_⟩
            intro x hx y hy
            simp only [List.head?_cons, Option.mem_def, Option.some.injEq] at hy
            subst hy
            have hlast : lastEnd (s.logs.getD i []) = x.2 := by
              have hx' : (s.logs.getD i []).getLast? = some x := Option.mem_def.1 hx
              unfold lastEnd
              rw [hx']
            have heq : s.coreFree.getD i 0 = x.2 := by rw [inv.cf_logs i him, hlast]
            have hx2 : x.2 ≤ s.time + eps := heq ▸ hcfree
            have hle : x.2 - eps ≤ s.time := by linarith
            exact le_trans hle (le_max_left _ _)
          · simp only [assignJob]
            rw [getD_set_ne_logs (fun hh => hic hh.symm)]
            exact inv.logs_chain i him
        · simp only [assignJob, List.map_append]
          have hone : [j.assigned s.time].map intervalOf =
              [(max s.time j.arrival, max s.time j.arrival + j.service)] := rfl
          rw [hone]
          refine List.Perm.trans (List.Perm.append_right _ inv.fin_logs) ?_
          exact (flatten_set_append s.logs c _ hllen).symm
      refine engInv_dispatchCores cs _ hstep ?_ (List.Nodup.of_cons hnd)
      intro c' hc'
      obtain ⟨h1, h2⟩ := hfree c' (List.mem_cons_of_mem _ hc')
      have hne : c ≠ c' := by
        rintro rfl
        exact (List.nodup_cons.1 hnd).1 hc'
      refine ⟨h1, ?_⟩
      simpa only [assignJob, getD_set_ne hne] using h2

theorem engInv_dispatchSection {all : List Job} {m : ℕ} {prio : ℚ → Job → Job → Bool}
    {s : St} (inv : EngInv all m s) :
    EngInv all m (dispatchCores (freeIdxs s) (sortedReady prio s)) := by
  refine engInv_dispatchCores _ _
    (engInv_ready_perm (List.perm_insertionSort _ _) inv) ?_ (freeIdxs_nodup s)
  intro c hc
  obtain ⟨h1, h2⟩ := mem_freeIdxs.1 hc
  exact ⟨by rwa [inv.cf_len] at h1, h2⟩

theorem engInv_loopBody {all : List Job} {m : ℕ} {prio : ℚ → Job → Job → Bool}
    {s0 : St} (inv : EngInv all m s0) :
    ∀ s', (loopBody all prio s0 = .cont s' ∨ loopBody all prio s0 = .halt s') →
      EngInv all m s' := by
  intro s' hs'
  have inv1 : EngInv all m (admitPhase all s0) := engInv_admitPhase inv
  rcases loopBody_cases all prio s0 with
    ⟨nf, _, _, _, heq⟩ | ⟨_, _, j, _, heq⟩ | ⟨_, _, _, heq⟩ | ⟨_, _, heq⟩ | ⟨_, _, heq⟩
  · rcases hs' with h' | h' <;> rw [heq] at h' <;> cases h'
    exact engInv_time inv1 _
  · rcases hs' with h' | h' <;> rw [heq] at h' <;> cases h'
    exact engInv_time inv1 _
  · rcases hs' with h' | h' <;> rw [heq] at h' <;> cases h'
    exact inv1
  · have inv2 := inv1
    rcases advanceClock_shape all (admitPhase all s0) with ⟨t, ha⟩ | ha <;>
      rcases hs' with h' | h' <;> rw [heq, ha] at h' <;> cases h'
    · exact engInv_time inv1 _
    · exact inv1
  · rw [dispatchSection_eq] at heq
    have inv2 := @engInv_dispatchSection _ _ prio _ inv1
    rcases advanceClock_shape all (dispatchCores (freeIdxs (admitPhase all s0))
        (sortedReady prio (admitPhase all s0))) with ⟨t, ha⟩ | ha <;>
      rcases hs' with h' | h' <;> rw [heq, ha] at h' <;> cases h'
    · exact engInv_time inv2 _
    · exact inv2

theorem advanceClock_ne_halt {all : List Job} {s : St} {nf : ℚ}
    (h : minQ s.coreFree = some nf) : ∀ s', advanceClock all s ≠ .halt s' := by
  intro s' hc
  unfold advanceClock at hc
  rcases hg : (all.get? s.idxNext).map Job.arrival with _ | na <;> rw [hg, h] at hc <;>
    cases hc

theorem loopBody_no_halt {all : List Job} {m : ℕ} {prio : ℚ → Job → Job → Bool}
    {s0 : St} (inv : EngInv all m s0) (hm : 1 ≤ m)
    (hguard : s0.finished.length < all.length) :
    ∀ s', loopBody all prio s0 ≠ .halt s' := by
  intro s' hhalt
  have inv1 : EngInv all m (admitPhase all s0) := engInv_admitPhase inv
  have hcf1 : (admitPhase all s0).coreFree ≠ [] := by
    intro hnil
    have := inv1.cf_len
    rw [hnil] at this
    simp at this
    omega
  rcases loopBody_cases all prio s0 with
    ⟨nf, _, _, _, heq⟩ | ⟨_, _, j, _, heq⟩ | ⟨hF, hR, hg, heq⟩ | ⟨_, _, heq⟩ | ⟨_, _, heq⟩
  · rw [heq] at hhalt; cases hhalt
  · rw [heq] at hhalt; cases hhalt
  · have hidx : all.length ≤ (admitPhase all s0).idxNext := List.get?_eq_none.1 hg
    have hidx2 : (admitPhase all s0).idxNext = all.length :=
      le_antisymm inv1.idx_le hidx
    have hcount := inv1.count
    rw [hR, hidx2] at hcount
    have hfin : (admitPhase all s0).finished = s0.finished := rfl
    rw [hfin] at hcount
    simp at hcount
    omega
  · obtain ⟨nf, hnf⟩ := Option.isSome_iff_exists.1 (minQ_isSome hcf1)
    rw [heq] at hhalt
    exact advanceClock_ne_halt hnf s' hhalt
  · rw [dispatchSection_eq] at heq
    have hcf2 : (dispatchCores (freeIdxs (admitPhase all s0))
        (sortedReady prio (admitPhase all s0))).coreFree ≠ [] := by
      intro hnil
      have hl := dispatchCores_cf_len (freeIdxs (admitPhase all s0))
        (sortedReady prio (admitPhase all s0))
      rw [hnil] at hl
      exact hcf1 (List.length_eq_zero.1 hl.symm)
    obtain ⟨nf, hnf⟩ := Option.isSome_iff_exists.1 (minQ_isSome hcf2)
    rw [heq] at hhalt
    exact advanceClock_ne_halt hnf s' hhalt

theorem runLoop_exit {all : List Job} {m : ℕ} {prio : ℚ → Job → Job → Bool} (hm : 1 ≤ m) :
    ∀ (fuel : ℕ) (s : St), EngInv all m s → runLoop all prio fuel s = some s' →
      EngInv all m s' ∧ all.length ≤ s'.finished.length
  | 0, s => by
    intro inv h
    unfold runLoop at h
    by_cases hg : s.finished.length < all.length
    · rw [if_pos hg] at h; cases h
    · rw [if_neg hg] at h
      cases h
      exact ⟨inv, le_of_not_lt hg⟩
  | fuel + 1, s => by
    intro inv h
    unfold runLoop at h
    by_cases hg : s.finished.length < all.length
    · rw [if_pos hg] at h
      rcases hb : loopBody all prio s with s2 | s2 <;> rw [hb] at h
      · exact runLoop_exit hm fuel s2 (engInv_loopBody inv s2 (Or.inl hb)) h
      · exact absurd hb (loopBody_no_halt inv hm hg s2)
    · rw [if_neg hg] at h
      cases h
      exact ⟨inv, le_of_not_lt hg⟩

theorem engInv_initSt (all : List Job) (m : ℕ) : EngInv all m (initSt m) := by
  constructor
  · rfl
  · exact Nat.zero_le _
  · simp [initSt]
  · simp [initSt]
  · simp [initSt, stripMS]
  · intro j hj
    simp [initSt] at hj
  · intro i him
    have : (List.replicate m (0 : ℚ)).getD i 0 = 0 := by
      rw [List.getD_eq_getElem?_getD, List.getElem?_replicate, if_pos him]
      rfl
    have h2 : (List.replicate m ([] : List (ℚ × ℚ))).getD i [] = [] := by
      rw [List.getD_eq_getElem?_getD, List.getElem?_replicate, if_pos him]
      rfl
    simp [initSt, this, h2, lastEnd]
  · intro i him
    have h2 : (List.replicate m ([] : List (ℚ × ℚ))).getD i [] = [] := by
      rw [List.getD_eq_getElem?_getD, List.getElem?_replicate, if_pos him]
      rfl
    simp [initSt, h2]
  · simp [initSt]

/-! ## The termination measure decreases -/

theorem countP_mono_lt {p q : ℚ → Bool} (himp : ∀ x, q x = true → p x = true) :
    ∀ (l : List ℚ) (a : ℚ), a ∈ l → p a = true → q a = false →
      l.countP q < l.countP p := by
  intro l
  induction l with
  | nil => intro a ha; simp at ha
  | cons x xs ih =>
    intro a ha hpa hqa
    rw [List.countP_cons, List.countP_cons]
    have hmono : xs.countP q ≤ xs.countP p :=
      List.countP_mono_left fun x _ hx => himp x hx
    rcases List.mem_cons.1 ha with rfl | ha
    · simp only [hpa, hqa, if_true, if_false, Bool.false_eq_true]
      omega
    · have := ih a ha hpa hqa
      have hle : (if q x then 1 else 0) ≤ if p x then 1 else 0 := by
        by_cases hqx : q x
        · rw [if_pos hqx, if_pos (himp x hqx)]
        · rw [if_neg hqx]
          omega
      omega

theorem rankE_lt {all : List Job} {s : St} {t : ℚ} (ht : s.time < t)
    (hmem : t ∈ all.map Job.arrival ++ s.coreFree) :
    rankE all { s with time := t } < rankE all s := by
  unfold rankE
  refine countP_mono_lt ?_ _ t hmem ?_ ?_
  · intro x hx
    simp only [decide_eq_true_eq] at hx ⊢
    exact lt_trans ht hx
  · simp only [decide_eq_true_eq]
    exact ht
  · simp only [decide_eq_false_iff_not]
    exact lt_irrefl t

theorem rankE_bound (all : List Job) (s : St) :
    rankE all s ≤ all.length + s.coreFree.length := by
  unfold rankE
  calc ((all.map Job.arrival) ++ s.coreFree).countP (fun e => s.time < e)
      ≤ ((all.map Job.arrival) ++ s.coreFree).length := List.countP_le_length _
    _ = all.length + s.coreFree.length := by simp

theorem lex3_lt {n B f f' i i' r r' : ℕ} (hB : r' < B) (hi' : i' ≤ n) (hf' : f' ≤ n)
    (h : (f' = f ∧ i' = i ∧ r' < r) ∨ (f' = f ∧ i < i') ∨ f < f') :
    (n - f') * ((n + 1) * B) + (n - i') * B + r' <
      (n - f) * ((n + 1) * B) + (n - i) * B + r := by
  rcases h with ⟨rfl, rfl, hr⟩ | ⟨rfl, hi⟩ | hf
  · omega
  · have hXB : (n - i' + 1) * B = (n - i') * B + B := by ring
    have h2 : n - i' + 1 ≤ n - i := by omega
    have h3 : (n - i' + 1) * B ≤ (n - i) * B := Nat.mul_le_mul_right _ h2
    omega
  · have k1 : (n - i') * B ≤ n * B := Nat.mul_le_mul_right _ (by omega)
    have k2 : (n + 1) * B = n * B + B := by ring
    have k3 : (n - f' + 1) * ((n + 1) * B) = (n - f') * ((n + 1) * B) + (n + 1) * B := by
      ring
    have k4 : n - f' + 1 ≤ n - f := by omega
    have k5 : (n - f' + 1) * ((n + 1) * B) ≤ (n - f) * ((n + 1) * B) :=
      Nat.mul_le_mul_right _ k4
    omega

theorem meas_lt_general {all : List Job} {s s' : St}
    (hcf : s'.coreFree.length = s.coreFree.length)
    (hidx' : s'.idxNext ≤ all.length)
    (hfin' : s'.finished.length ≤ all.length)
    (hcase :
      (s'.finished.length = s.finished.length ∧ s'.idxNext = s.idxNext ∧
        rankE all s' < rankE all s) ∨
      (s'.finished.length = s.finished.length ∧ s.idxNext < s'.idxNext) ∨
      s.finished.length < s'.finished.length) :
    meas all s' < meas all s := by
  unfold meas
  rw [hcf]
  refine lex3_lt ?_ hidx' hfin' hcase
  have := rankE_bound all s'
  rw [hcf] at this
  omega

theorem advanceClock_cont {all : List Job} {s s' : St}
    (h : advanceClock all s = .cont s') :
    (∃ j nf, all.get? s.idxNext = some j ∧ minQ s.coreFree = some nf ∧
      s' = { s with time := min j.arrival nf }) ∨
    (∃ j, all.get? s.idxNext = some j ∧ minQ s.coreFree = none ∧
      s' = { s with time := j.arrival }) ∨
    (∃ nf, all.get? s.idxNext = none ∧ minQ s.coreFree = some nf ∧
      s' = { s with time := nf }) := by
  unfold advanceClock at h
  rcases hg : all.get? s.idxNext with _ | j <;> rcases hf : minQ s.coreFree with _ | nf <;>
    rw [hg, hf] at h <;> simp only [Option.map_none', Option.map_some'] at h <;>
    cases h
  · exact Or.inr (Or.inr ⟨nf, rfl, rfl, rfl⟩)
  · exact Or.inr (Or.inl ⟨j, rfl, rfl, rfl⟩)
  · exact Or.inl ⟨j, nf, rfl, rfl, rfl⟩

theorem rankE_admitPhase (all : List Job) (s : St) :
    rankE all (admitPhase all s) = rankE all s := rfl

theorem rankE_sortedReady (all : List Job) (prio : ℚ → Job → Job → Bool) (s : St) :
    rankE all (sortedReady prio s) = rankE all s := rfl

theorem fin_le_length {all : List Job} {m : ℕ} {s : St} (inv : EngInv all m s) :
    s.finished.length ≤ all.length := by
  have h1 := inv.count
  have h2 := inv.idx_le
  omega

theorem meas_loopBody {all : List Job} {m : ℕ} {prio : ℚ → Job → Job → Bool}
    {s0 s' : St} (inv : EngInv all m s0)
    (h : loopBody all prio s0 = .cont s') : meas all s' < meas all s0 := by
  have inv1 : EngInv all m (admitPhase all s0) := engInv_admitPhase inv
  have hfin0 : s0.finished.length ≤ all.length := fin_le_length inv
  have hidxle : s0.idxNext ≤ (admitPhase all s0).idxNext := Nat.le_add_right _ _
  rcases loopBody_cases all prio s0 with
    ⟨nf, hnf, hF, hRne, heq⟩ | ⟨hFne, hRnil, j, hget, heq⟩ | ⟨_, _, _, heq⟩ |
    ⟨hF, hRnil, heq⟩ | ⟨hRne, hFor, heq⟩
  · -- no free core, ready jobs wait: clock jumps to the earliest core free time
    rw [heq] at h
    cases h
    have hnfmem : nf ∈ (admitPhase all s0).coreFree := (minQ_spec hnf).1
    have ht : (admitPhase all s0).time < nf := by
      have := freeIdxs_eq_nil_iff.1 hF nf hnfmem
      have he := eps_pos
      linarith
    refine meas_lt_general rfl inv1.idx_le hfin0 ?_
    by_cases hii : (admitPhase all s0).idxNext = s0.idxNext
    · refine Or.inl ⟨rfl, hii, ?_⟩
      rw [← rankE_admitPhase all s0]
      exact rankE_lt ht (List.mem_append_right _ hnfmem)
    · exact Or.inr (Or.inl ⟨rfl, lt_of_le_of_ne hidxle fun hh => hii hh.symm⟩)
  · -- free cores but empty ready set: clock jumps to the next arrival
    rw [heq] at h
    cases h
    have ht : (admitPhase all s0).time < j.arrival := get?_after_arrived hget
    have hjmem : j ∈ all := List.get?_mem hget
    refine meas_lt_general rfl inv1.idx_le hfin0 ?_
    by_cases hii : (admitPhase all s0).idxNext = s0.idxNext
    · refine Or.inl ⟨rfl, hii, ?_⟩
      rw [← rankE_admitPhase all s0]
      exact rankE_lt ht (List.mem_append_left _ (List.mem_map_of_mem _ hjmem))
    · exact Or.inr (Or.inl ⟨rfl, lt_of_le_of_ne hidxle fun hh => hii hh.symm⟩)
  · -- halt case: contradicts `.cont`
    rw [heq] at h
    cases h
  · -- no free core and empty ready set: idle advance
    rw [heq] at h
    rcases advanceClock_cont h with ⟨j, nf, hget, hnf, rfl⟩ | ⟨j, hget, hnf, rfl⟩ |
      ⟨nf, hget, hnf, rfl⟩
    · have htj : (admitPhase all s0).time < j.arrival := get?_after_arrived hget
      have hnfmem : nf ∈ (admitPhase all s0).coreFree := (minQ_spec hnf).1
      have htf : (admitPhase all s0).time < nf := by
        have := freeIdxs_eq_nil_iff.1 hF nf hnfmem
        have he := eps_pos
        linarith
      have ht : (admitPhase all s0).time < min j.arrival nf := lt_min htj htf
      have hmem : min j.arrival nf ∈ all.map Job.arrival ++ (admitPhase all s0).coreFree := by
        rcases min_choice j.arrival nf with hmin | hmin <;> rw [hmin]
        · exact List.mem_append_left _ (List.mem_map_of_mem _ (List.get?_mem hget))
        · exact List.mem_append_right _ hnfmem
      refine meas_lt_general rfl inv1.idx_le hfin0 ?_
      by_cases hii : (admitPhase all s0).idxNext = s0.idxNext
      · refine Or.inl ⟨rfl, hii, ?_⟩
        rw [← rankE_admitPhase all s0]
        exact rankE_lt ht hmem
      · exact Or.inr (Or.inl ⟨rfl, lt_of_le_of_ne hidxle fun hh => hii hh.symm⟩)
    · have ht : (admitPhase all s0).time < j.arrival := get?_after_arrived hget
      refine meas_lt_general rfl inv1.idx_le hfin0 ?_
      by_cases hii : (admitPhase all s0).idxNext = s0.idxNext
      · refine Or.inl ⟨rfl, hii, ?_⟩
        rw [← rankE_admitPhase all s0]
        exact rankE_lt ht (List.mem_append_left _ (List.mem_map_of_mem _ (List.get?_mem hget)))
      · exact Or.inr (Or.inl ⟨rfl, lt_of_le_of_ne hidxle fun hh => hii hh.symm⟩)
    · have hnfmem : nf ∈ (admitPhase all s0).coreFree := (minQ_spec hnf).1
      have ht : (admitPhase all s0).time < nf := by
        have := freeIdxs_eq_nil_iff.1 hF nf hnfmem
        have he := eps_pos
        linarith
      refine meas_lt_general rfl inv1.idx_le hfin0 ?_
      by_cases hii : (admitPhase all s0).idxNext = s0.idxNext
      · refine Or.inl ⟨rfl, hii, ?_⟩
        rw [← rankE_admitPhase all s0]
        exact rankE_lt ht (List.mem_append_right _ hnfmem)
      · exact Or.inr (Or.inl ⟨rfl, lt_of_le_of_ne hidxle fun hh => hii hh.symm⟩)
  · -- dispatch section
    rw [dispatchSection_eq] at heq
    rw [heq] at h
    have inv2 : EngInv all m (sortedReady prio (admitPhase all s0)) :=
      engInv_ready_perm (List.perm_insertionSort _ _) inv1
    rcases hFcase : freeIdxs (admitPhase all s0) with _ | ⟨c, cs⟩
    · -- fall-through with an empty core array: no dispatch happens
      rw [hFcase] at h
      have hcfnil : (admitPhase all s0).coreFree = [] := by
        rcases hFor with hne | hnone
        · exact absurd hFcase hne
        · exact minQ_eq_none hnone
      have hdc : dispatchCores [] (sortedReady prio (admitPhase all s0)) =
          sortedReady prio (admitPhase all s0) := rfl
      rw [hdc] at h
      have hnone2 : minQ (sortedReady prio (admitPhase all s0)).coreFree = none := by
        have : (sortedReady prio (admitPhase all s0)).coreFree = [] := hcfnil
        rw [this]
        rfl
      rcases advanceClock_cont h with ⟨j, nf, hget, hnf, rfl⟩ | ⟨j, hget, hnf, rfl⟩ |
        ⟨nf, hget, hnf, rfl⟩
      · rw [hnone2] at hnf
        cases hnf
      · have ht : (admitPhase all s0).time < j.arrival := get?_after_arrived hget
        refine meas_lt_general rfl inv1.idx_le hfin0 ?_
        by_cases hii : (admitPhase all s0).idxNext = s0.idxNext
        · refine Or.inl ⟨rfl, hii, ?_⟩
          rw [← rankE_admitPhase all s0, ← rankE_sortedReady all prio (admitPhase all s0)]
          exact rankE_lt ht
            (List.mem_append_left _ (List.mem_map_of_mem _ (List.get?_mem hget)))
        · exact Or.inr (Or.inl ⟨rfl, lt_of_le_of_ne hidxle fun hh => hii hh.symm⟩)
      · rw [hnone2] at hnf
        cases hnf
    · -- at least one free core and a non-empty ready set: a job is dispatched
      have inv3 : EngInv all m (dispatchCores (freeIdxs (admitPhase all s0))
          (sortedReady prio (admitPhase all s0))) := engInv_dispatchSection inv1
      rw [hFcase] at h inv3
      have hstrict : (sortedReady prio (admitPhase all s0)).finished.length <
          (dispatchCores (c :: cs) (sortedReady prio (admitPhase all s0))).finished.length :=
        dispatchCores_fin_strict c cs _ (sortedReady_ne_nil hRne)
      rcases advanceClock_shape all
          (dispatchCores (c :: cs) (sortedReady prio (admitPhase all s0))) with ⟨t, ha⟩ | ha
      · rw [ha] at h
        cases h
        refine meas_lt_general ?_ (engInv_time inv3 t).idx_le
          (fin_le_length (engInv_time inv3 t)) ?_
        · exact dispatchCores_cf_len _ _
        · exact Or.inr (Or.inr hstrict)
      · rw [ha] at h
        cases h

theorem runLoop_total {all : List Job} {m : ℕ} {prio : ℚ → Job → Job → Bool} :
    ∀ (fuel : ℕ) (s : St), EngInv all m s → meas all s < fuel →
      ∃ s', runLoop all prio fuel s = some s'
  | 0, s => by
    intro _ h
    omega
  | fuel + 1, s => by
    intro inv hmeas
    unfold runLoop
    by_cases hg : s.finished.length < all.length
    · rw [if_pos hg]
      rcases hb : loopBody all prio s with s2 | s2
      · have hlt : meas all s2 < fuel := by
          have := meas_loopBody inv hb
          omega
        exact runLoop_total fuel s2 (engInv_loopBody inv s2 (Or.inl hb)) hlt
      · exact ⟨s2, rfl⟩
    · rw [if_neg hg]
      exact ⟨s, rfl⟩

theorem initSt_cf_len (m : ℕ) : (initSt m).coreFree.length = m := by
  simp [initSt]

theorem meas_initSt_lt (all : List Job) (m : ℕ) :
    meas all (initSt m) < engineFuel all.length m := by
  have hrank : rankE all (initSt m) ≤ all.length + m := by
    have := rankE_bound all (initSt m)
    rwa [initSt_cf_len] at this
  unfold meas engineFuel
  rw [initSt_cf_len]
  have hfin : (initSt m).finished.length = 0 := rfl
  have hidx : (initSt m).idxNext = 0 := rfl
  rw [hfin, hidx]
  simp only [Nat.sub_zero]
  have key : all.length * ((all.length + 1) * (all.length + m + 2)) +
      all.length * (all.length + m + 2) + (all.length + m + 2) =
      (all.length + 1) * (all.length + 1) * (all.length + m + 2) := by ring
  have h2 : (all.length + 1) * (all.length + 1) * (all.length + m + 2) ≤
      (all.length + 2) * (all.length + 2) * (all.length + m + 2) :=
    Nat.mul_le_mul_right _ (Nat.mul_le_mul (by omega) (by omega))
  omega

theorem engine_loop_exit {jobs : List Job} {m : ℕ} {prio : ℚ → Job → Job → Bool}
    (hm : 1 ≤ m) :
    ∃ s', runLoop (sortByArrival jobs) prio
        (engineFuel (sortByArrival jobs).length m) (initSt m) = some s' ∧
      EngInv (sortByArrival jobs) m s' ∧
      s'.finished.length = (sortByArrival jobs).length ∧ s'.ready = [] ∧
      s'.idxNext = (sortByArrival jobs).length ∧
      engineRun prio jobs m = some { s' with ready := [] } := by
  obtain ⟨s', hrun⟩ := @runLoop_total (sortByArrival jobs) m prio
    (engineFuel (sortByArrival jobs).length m) (initSt m)
    (engInv_initSt _ m) (meas_initSt_lt _ m)
  obtain ⟨inv', hge⟩ := runLoop_exit hm _ _ (engInv_initSt _ m) hrun
  have hcount := inv'.count
  have hidxle := inv'.idx_le
  have hfin : s'.finished.length = (sortByArrival jobs).length := by omega
  have hready : s'.ready = [] := by
    have : s'.ready.length = 0 := by omega
    exact List.length_eq_zero.1 this
  have hidx : s'.idxNext = (sortByArrival jobs).length := by omega
  refine ⟨s', hrun, inv', hfin, hready, hidx, ?_⟩
  show ((runLoop (sortByArrival jobs) prio
      (engineFuel (sortByArrival jobs).length m) (initSt m)).bind fun s =>
        fallbackLoop s.ready { s with ready := [] }) = some { s' with ready := [] }
  rw [hrun, Option.some_bind, hready]
  rfl

/-! ## The FCFS single pass -/

theorem fcfsInv_initSt (m : ℕ) : FcfsInv m (initSt m) := by
  constructor
  · simp [initSt]
  · simp [initSt]
  · intro i him
    have h1 : (List.replicate m (0 : ℚ)).getD i 0 = 0 := by
      rw [List.getD_eq_getElem?_getD, List.getElem?_replicate, if_pos him]
      rfl
    have h2 : (List.replicate m ([] : List (ℚ × ℚ))).getD i [] = [] := by
      rw [List.getD_eq_getElem?_getD, List.getElem?_replicate, if_pos him]
      rfl
    simp [initSt, h1, h2, lastEnd]
  · intro i him
    have h2 : (List.replicate m ([] : List (ℚ × ℚ))).getD i [] = [] := by
      rw [List.getD_eq_getElem?_getD, List.getElem?_replicate, if_pos him]
      rfl
    simp [initSt, h2]
  · intro j hj
    simp [initSt] at hj
  · simp [initSt]

theorem fcfsInv_assign {m : ℕ} {s : St} {i : ℕ} {ft : ℚ} {j : Job}
    (inv : FcfsInv m s) (hp : findMinIdx s.coreFree = some (i, ft)) :
    FcfsInv m (assignJob i ft j s) := by
  obtain ⟨hlen, hget, hle, hlt⟩ := findMinIdx_spec _ _ _ hp
  have hllen : i < s.logs.length := by rw [inv.logs_len, ← inv.cf_len]; exact hlen
  constructor
  · simp [assignJob, inv.cf_len]
  · simp [assignJob, inv.logs_len]
  · intro k hkm
    by_cases hki : k = i
    · subst hki
      simp only [assignJob]
      rw [getD_set_self hlen, getD_set_self_logs hllen, lastEnd_append_single]
    · simp only [assignJob]
      rw [getD_set_ne (fun hh => hki hh.symm), getD_set_ne_logs (fun hh => hki hh.symm)]
      exact inv.cf_logs k hkm
  · intro k hkm
    by_cases hki : k = i
    · subst hki
      simp only [assignJob]
      rw [getD_set_self_logs hllen, List.chain'_append]
      refine ⟨inv.logs_chain k hkm, List.chain'_singleton _, ?_⟩
      intro x hx y hy
      simp only [List.head?_cons, Option.mem_def, Option.some.injEq] at hy
      subst hy
      have hlast : lastEnd (s.logs.getD k []) = x.2 := by
        have hx' : (s.logs.getD k []).getLast? = some x := Option.mem_def.1 hx
        unfold lastEnd
        rw [hx']
      have heq : ft = x.2 := by rw [← hget, inv.cf_logs k hkm, hlast]
      rw [← heq]
      exact le_max_left _ _
    · simp only [assignJob]
      rw [getD_set_ne_logs (fun hh => hki hh.symm)]
      exact inv.logs_chain k hkm
  · intro j' hj'
    simp only [assignJob, List.mem_append, List.mem_singleton] at hj'
    rcases hj' with hj' | rfl
    · exact inv.fin_wf j' hj'
    · exact ⟨max ft j.arrival, rfl, rfl, le_max_right _ _⟩
  · simp only [assignJob, List.map_append]
    have hone : [j.assigned ft].map intervalOf =
        [(max ft j.arrival, max ft j.arrival + j.service)] := rfl
    rw [hone]
    refine List.Perm.trans (List.Perm.append_right _ inv.fin_logs) ?_
    exact (flatten_set_append s.logs i _ hllen).symm

theorem fcfs_fold {m : ℕ} (hm : 1 ≤ m) :
    ∀ (l : List Job) (s : St), FcfsInv m s →
      ∃ s', l.foldlM fcfsStep s = some s' ∧ FcfsInv m s' ∧
        stripMS s'.finished = stripMS s.finished + stripMS l ∧
        s'.finished.map Job.arrival = s.finished.map Job.arrival ++ l.map Job.arrival
  | [], s => fun inv => ⟨s, rfl, inv, by simp [stripMS], by simp⟩
  | j :: l, s => by
    intro inv
    have hcfne : s.coreFree ≠ [] := by
      intro h
      have := inv.cf_len
      rw [h] at this
      simp at this
      omega
    obtain ⟨p, hp⟩ := Option.isSome_iff_exists.1 (findMinIdx_isSome hcfne)
    obtain ⟨i, ft⟩ := p
    have hstep : FcfsInv m (assignJob i ft j s) := fcfsInv_assign inv hp
    obtain ⟨s', hfold, inv', hstrip, harr⟩ := fcfs_fold hm l _ hstep
    have hstep_eq : fcfsStep s j = some (assignJob i ft j s) := by
      unfold fcfsStep
      rw [hp]
      rfl
    refine ⟨s', ?_, inv', ?_, ?_⟩
    · rw [List.foldlM_cons]
      rw [hstep_eq]
      simpa using hfold
    · rw [hstrip]
      have hfin : (assignJob i ft j s).finished = s.finished ++ [j.assigned ft] := rfl
      have hone : stripMS [j.assigned ft] = {j.strip} := rfl
      rw [hfin, stripMS_append, hone, stripMS_cons j l, ← Multiset.singleton_add]
      abel
    · rw [harr]
      have hfin : (assignJob i ft j s).finished = s.finished ++ [j.assigned ft] := rfl
      have harrj : (j.assigned ft).arrival = j.arrival := rfl
      rw [hfin]
      simp [harrj, List.append_assoc]

/-! ## Nonnegativity invariants and interval lemmas -/

theorem getD_mem_of_lt {l : List ℚ} {i : ℕ} (h : i < l.length) : l.getD i 0 ∈ l := by
  rw [List.getD_eq_getElem?_getD, List.getElem?_eq_getElem h]
  exact List.getElem_mem _

theorem fcfsPos_initSt (m : ℕ) : FcfsPos (initSt m) := by
  constructor
  · intro x hx
    rw [List.eq_of_mem_replicate hx]
  · intro i hi p hp
    have h2 : (initSt m).logs.getD i [] = [] := by
      show (List.replicate m ([] : List (ℚ × ℚ))).getD i [] = []
      rcases lt_or_ge i m with him | him
      · rw [List.getD_eq_getElem?_getD, List.getElem?_replicate, if_pos him]
        rfl
      · rw [List.getD_eq_getElem?_getD, List.getElem?_replicate,
          if_neg (by omega)]
        rfl
    rw [h2] at hp
    simp at hp

theorem pos_assign {s : St} {c : ℕ} {t : ℚ} {j : Job}
    (hcf : ∀ x ∈ s.coreFree, 0 ≤ x)
    (hlogs : ∀ i < s.logs.length, ∀ p ∈ s.logs.getD i [], 0 ≤ p.1 ∧ p.1 ≤ p.2)
    (ht : 0 ≤ t) (hsvc : 0 ≤ j.service) :
    (∀ x ∈ (assignJob c t j s).coreFree, 0 ≤ x) ∧
      (∀ i < (assignJob c t j s).logs.length, ∀ p ∈ (assignJob c t j s).logs.getD i [],
        0 ≤ p.1 ∧ p.1 ≤ p.2) := by
  have hst : (0 : ℚ) ≤ max t j.arrival := le_trans ht (le_max_left _ _)
  have hend : max t j.arrival ≤ max t j.arrival + j.service := by linarith
  constructor
  · intro x hx
    simp only [assignJob] at hx
    rcases List.mem_or_eq_of_mem_set hx with hx | rfl
    · exact hcf x hx
    · linarith
  · intro i hi p hp
    simp only [assignJob, List.length_set] at hi hp
    by_cases hic : i = c
    · subst hic
      have hil : i < s.logs.length := hi
      rw [getD_set_self_logs hil] at hp
      rcases List.mem_append.1 hp with hp | hp
      · exact hlogs i hi p hp
      · obtain rfl : p = (max t j.arrival, max t j.arrival + j.service) := by
          simpa using hp
        exact ⟨hst, hend⟩
    · rw [getD_set_ne_logs (fun hh => hic hh.symm)] at hp
      exact hlogs i hi p hp

theorem fcfsPos_fold {m : ℕ} :
    ∀ (l : List Job) (s : St), FcfsInv m s → FcfsPos s → (∀ j ∈ l, 0 ≤ j.service) →
      ∀ s', l.foldlM fcfsStep s = some s' → FcfsPos s'
  | [], s => by
    intro _ pos _ s' h
    cases h
    exact pos
  | j :: l, s => by
    intro inv pos hsvc s' h
    rw [List.foldlM_cons] at h
    cases hp : findMinIdx s.coreFree with
    | none =>
      rw [show fcfsStep s j = none by unfold fcfsStep; rw [hp]; rfl] at h
      exact Option.noConfusion h
    | some p =>
      obtain ⟨i, ft⟩ := p
      obtain ⟨hlen, hget, _, _⟩ := findMinIdx_spec _ _ _ hp
      have hft : 0 ≤ ft := by
        rw [← hget]
        exact pos.cf0 _ (getD_mem_of_lt hlen)
      obtain ⟨hcf', hlogs'⟩ :=
        @pos_assign s i ft j pos.cf0 pos.logs0 hft
          (hsvc j (List.mem_cons_self _ _))
      rw [show fcfsStep s j = some (assignJob i ft j s) by unfold fcfsStep; rw [hp]; rfl] at h
      exact fcfsPos_fold l _ (fcfsInv_assign inv hp) ⟨hcf', hlogs'⟩
        (fun j' hj' => hsvc j' (List.mem_cons_of_mem _ hj')) s' h

theorem chain'_imp_mem {α : Type _} {R S : α → α → Prop} {P : α → Prop}
    (himp : ∀ a b, P a → P b → R a b → S a b) :
    ∀ (l : List α), l.Chain' R → (∀ a ∈ l, P a) → l.Chain' S
  | [] => fun _ _ => List.chain'_nil
  | [a] => fun _ _ => List.chain'_singleton a
  | a :: b :: t => fun hc hp => by
    rw [List.chain'_cons] at hc ⊢
    refine ⟨himp a b (hp a (by simp)) (hp b (by simp)) hc.1, ?_⟩
    exact chain'_imp_mem himp (b :: t) hc.2 fun x hx => hp x (List.mem_cons_of_mem _ hx)

theorem chain_ends {c : ℚ} (hc0 : 0 ≤ c) {l : List (ℚ × ℚ)}
    (hc : l.Chain' fun p q => p.2 - c ≤ q.1)
    (hwf : ∀ p ∈ l, 0 ≤ p.1 ∧ p.1 ≤ p.2) :
    (0 :: l.map Prod.snd).Chain' fun a b => a - c ≤ b := by
  rw [List.chain'_cons']
  constructor
  · intro y hy
    rw [List.head?_map] at hy
    rcases hh : l.head? with _ | p
    · rw [hh] at hy
      cases hy
    · rw [hh] at hy
      simp only [Option.map_some', Option.mem_def, Option.some.injEq] at hy
      subst hy
      have hpmem : p ∈ l := List.mem_of_mem_head? (by rw [hh]; rfl)
      obtain ⟨h1, h2⟩ := hwf p hpmem
      linarith
  · rw [List.chain'_map]
    refine @chain'_imp_mem _ _ _ (fun p => 0 ≤ p.1 ∧ p.1 ≤ p.2) ?_ l hc hwf
    intro a b _ hb hab
    have := hb.2
    linarith

theorem chain_head_le : ∀ {l : List (ℚ × ℚ)}, l.Chain' (fun p q => p.2 ≤ q.1) →
    (∀ p ∈ l, p.1 ≤ p.2) → ∀ {v : ℚ}, (∀ y ∈ l.head?, v ≤ y.1) → ∀ q ∈ l, v ≤ q.1 := by
  intro l
  induction l with
  | nil =>
    intro _ _ v _ q hq
    cases hq
  | cons a t ih =>
    intro hc hwf v hv q hq
    have hva : v ≤ a.1 := hv a rfl
    rcases List.mem_cons.1 hq with rfl | hq
    · exact hva
    · rw [List.chain'_cons'] at hc
      refine ih hc.2 (fun p hp => hwf p (List.mem_cons_of_mem _ hp)) ?_ q hq
      intro y hy
      have h1 : a.2 ≤ y.1 := hc.1 y hy
      have h2 : a.1 ≤ a.2 := hwf a (List.mem_cons_self _ _)
      linarith

theorem pairwise_of_chain_exact {l : List (ℚ × ℚ)}
    (hc : l.Chain' fun p q => p.2 ≤ q.1) (hwf : ∀ p ∈ l, p.1 ≤ p.2) :
    l.Pairwise fun p q => p.2 ≤ q.1 := by
  induction l with
  | nil => exact List.Pairwise.nil
  | cons a t ih =>
    rw [List.chain'_cons'] at hc
    refine List.Pairwise.cons ?_ (ih hc.2 fun p hp => hwf p (List.mem_cons_of_mem _ hp))
    intro q hq
    exact chain_head_le hc.2 (fun p hp => hwf p (List.mem_cons_of_mem _ hp)) hc.1 q hq

theorem countP_congr_list {α : Type _} (p q : α → Bool) :
    ∀ l : List α, (∀ a ∈ l, p a = q a) → l.countP p = l.countP q
  | [] => fun _ => rfl
  | a :: l => fun h => by
    rw [List.countP_cons, List.countP_cons, h a (List.mem_cons_self _ _),
      countP_congr_list p q l fun x hx => h x (List.mem_cons_of_mem _ hx)]

theorem countP_running_le_one (t : ℚ) :
    ∀ l : List (ℚ × ℚ), l.Pairwise (fun p q => p.2 ≤ q.1) →
      l.countP (fun p => decide (p.1 ≤ t ∧ t < p.2)) ≤ 1
  | [] => by simp
  | p :: rest => fun hp => by
    rw [List.countP_cons]
    rw [List.pairwise_cons] at hp
    by_cases hrun : p.1 ≤ t ∧ t < p.2
    · have hzero : rest.countP (fun q => decide (q.1 ≤ t ∧ t < q.2)) = 0 := by
        rw [List.countP_eq_zero]
        intro q hq
        have hle := hp.1 q hq
        simp only [decide_eq_true_eq, not_and, not_lt]
        intro hq1
        exfalso
        have := hrun.2
        linarith
      rw [hzero]
      simp [hrun]
    · have hfalse : (decide (p.1 ≤ t ∧ t < p.2)) = false := by simp [hrun]
      rw [hfalse]
      simpa using countP_running_le_one t rest hp.2

theorem sum_le_length : ∀ L : List ℕ, (∀ x ∈ L, x ≤ 1) → L.sum ≤ L.length
  | [] => fun _ => le_refl _
  | x :: L => fun h => by
    rw [List.sum_cons, List.length_cons]
    have h1 := h x (List.mem_cons_self _ _)
    have h2 := sum_le_length L fun y hy => h y (List.mem_cons_of_mem _ hy)
    omega

theorem capacity_of_logs {s : St} {m : ℕ} (hlen : s.logs.length = m)
    (hchain : ∀ L ∈ s.logs, L.Pairwise fun p q => p.2 ≤ q.1)
    (hperm : (s.finished.map intervalOf).Perm s.logs.flatten)
    (hwfall : ∀ j ∈ s.finished, JobWF j) (t : ℚ) :
    (s.finished.filter (runningAt t)).length ≤ m := by
  rw [← List.countP_eq_length_filter]
  have hbridge : s.finished.countP (runningAt t) =
      (s.finished.map intervalOf).countP fun p => decide (p.1 ≤ t ∧ t < p.2) := by
    rw [List.countP_map]
    refine countP_congr_list _ _ _ ?_
    intro j hj
    obtain ⟨st, hs, he, _⟩ := hwfall j hj
    simp [runningAt, intervalOf, hs, he, Function.comp]
  rw [hbridge, hperm.countP_eq, List.countP_flatten]
  calc (s.logs.map (List.countP fun p => decide (p.1 ≤ t ∧ t < p.2))).sum
      ≤ (s.logs.map (List.countP fun p => decide (p.1 ≤ t ∧ t < p.2))).length := by
        refine sum_le_length _ ?_
        intro x hx
        obtain ⟨L, hL, rfl⟩ := List.mem_map.1 hx
        exact countP_running_le_one t L (hchain L hL)
    _ = m := by rw [List.length_map, hlen]

/-! ## Nonnegativity through the event loop -/

theorem posInv_time {s : St} (pos : PosInv s) {t : ℚ} (ht : 0 ≤ t) :
    PosInv { s with time := t } :=
  ⟨ht, pos.cf0, pos.logs0⟩

theorem posInv_admitPhase {all : List Job} {s : St} (pos : PosInv s) :
    PosInv (admitPhase all s) :=
  ⟨pos.time0, pos.cf0, pos.logs0⟩

theorem posInv_sortedReady {prio : ℚ → Job → Job → Bool} {s : St} (pos : PosInv s) :
    PosInv (sortedReady prio s) :=
  ⟨pos.time0, pos.cf0, pos.logs0⟩

theorem ready_svc_nonneg {all : List Job} {m : ℕ} {s : St} (inv : EngInv all m s)
    (hsvc : ∀ j ∈ all, 0 ≤ j.service) : ∀ j ∈ s.ready, 0 ≤ j.service := by
  intro j hj
  have hle : stripMS s.ready ≤ stripMS all := by
    rw [← inv.conserve]
    calc stripMS s.ready ≤ stripMS s.finished + stripMS s.ready := self_le_add_left _ _
      _ ≤ stripMS s.finished + stripMS s.ready + stripMS (all.drop s.idxNext) :=
        self_le_add_right _ _
  obtain ⟨j', hj', he⟩ := mem_of_stripMS_le hle hj
  have hs : j.service = j'.service := congrArg (fun p => p.2.2) he
  rw [hs]
  exact hsvc j' hj'

theorem posInv_dispatchCores :
    ∀ (cs : List ℕ) (s : St), PosInv s → (∀ j ∈ s.ready, 0 ≤ j.service) →
      PosInv (dispatchCores cs s)
  | [], s => fun pos _ => pos
  | c :: cs, s => by
    intro pos hsvc
    unfold dispatchCores
    cases hr : s.ready with
    | nil => exact pos
    | cons j rest =>
      have hj : 0 ≤ j.service := hsvc j (by rw [hr]; exact List.mem_cons_self _ _)
      obtain ⟨hcf', hlogs'⟩ := pos_assign pos.cf0 pos.logs0 pos.time0 hj
      refine posInv_dispatchCores cs _ ⟨pos.time0, hcf', hlogs'⟩ ?_
      intro j' hj'
      exact hsvc j' (by rw [hr]; exact List.mem_cons_of_mem _ hj')

theorem posInv_loopBody {all : List Job} {m : ℕ} {prio : ℚ → Job → Job → Bool}
    {s0 : St} (inv : EngInv all m s0) (pos : PosInv s0)
    (harr : ∀ j ∈ all, 0 ≤ j.arrival) (hsvc : ∀ j ∈ all, 0 ≤ j.service) :
    ∀ s', (loopBody all prio s0 = .cont s' ∨ loopBody all prio s0 = .halt s') →
      PosInv s' := by
  intro s' hs'
  have inv1 : EngInv all m (admitPhase all s0) := engInv_admitPhase inv
  have pos1 : PosInv (admitPhase all s0) := posInv_admitPhase pos
  rcases loopBody_cases all prio s0 with
    ⟨nf, hnf, hF, hRne, heq⟩ | ⟨hFne, hRnil, j, hget, heq⟩ | ⟨_, _, _, heq⟩ |
    ⟨hF, hRnil, heq⟩ | ⟨hRne, hFor, heq⟩
  · rcases hs' with h' | h' <;> rw [heq] at h' <;> cases h'
    exact posInv_time pos1 (pos1.cf0 nf (minQ_spec hnf).1)
  · rcases hs' with h' | h' <;> rw [heq] at h' <;> cases h'
    exact posInv_time pos1 (harr j (List.get?_mem hget))
  · rcases hs' with h' | h' <;> rw [heq] at h' <;> cases h'
    exact pos1
  · rcases hs' with h' | h'
    · rw [heq] at h'
      rcases advanceClock_cont h' with ⟨j, nf, hget, hnf, rfl⟩ | ⟨j, hget, hnf, rfl⟩ |
        ⟨nf, hget, hnf, rfl⟩
      · exact posInv_time pos1 (le_min (harr j (List.get?_mem hget))
          (pos1.cf0 nf (minQ_spec hnf).1))
      · exact posInv_time pos1 (harr j (List.get?_mem hget))
      · exact posInv_time pos1 (pos1.cf0 nf (minQ_spec hnf).1)
    · rw [heq] at h'
      rcases advanceClock_shape all (admitPhase all s0) with ⟨t, ha⟩ | ha <;>
        rw [ha] at h' <;> cases h'
      exact pos1
  · rw [dispatchSection_eq] at heq
    have hsvcready : ∀ j ∈ (sortedReady prio (admitPhase all s0)).ready, 0 ≤ j.service := by
      intro j hj
      exact ready_svc_nonneg inv1 hsvc j ((sortedReady_perm _ _).mem_iff.1 hj)
    have pos3 : PosInv (dispatchCores (freeIdxs (admitPhase all s0))
        (sortedReady prio (admitPhase all s0))) :=
      posInv_dispatchCores _ _ (posInv_sortedReady pos1) hsvcready
    rcases hs' with h' | h'
    · rw [heq] at h'
      rcases advanceClock_cont h' with ⟨j, nf, hget, hnf, rfl⟩ | ⟨j, hget, hnf, rfl⟩ |
        ⟨nf, hget, hnf, rfl⟩
      · exact posInv_time pos3 (le_min (harr j (List.get?_mem hget))
          (pos3.cf0 nf (minQ_spec hnf).1))
      · exact posInv_time pos3 (harr j (List.get?_mem hget))
      · exact posInv_time pos3 (pos3.cf0 nf (minQ_spec hnf).1)
    · rw [heq] at h'
      rcases advanceClock_shape all (dispatchCores (freeIdxs (admitPhase all s0))
          (sortedReady prio (admitPhase all s0))) with ⟨t, ha⟩ | ha <;>
        rw [ha] at h' <;> cases h'
      exact pos3

theorem posInv_runLoop {all : List Job} {m : ℕ} {prio : ℚ → Job → Job → Bool}
    (harr : ∀ j ∈ all, 0 ≤ j.arrival) (hsvc : ∀ j ∈ all, 0 ≤ j.service) :
    ∀ (fuel : ℕ) (s : St) {s' : St}, EngInv all m s → PosInv s →
      runLoop all prio fuel s = some s' → PosInv s'
  | 0, s => by
    intro inv pos h
    unfold runLoop at h
    by_cases hg : s.finished.length < all.length
    · rw [if_pos hg] at h
      cases h
    · rw [if_neg hg] at h
      cases h
      exact pos
  | fuel + 1, s => by
    intro inv pos h
    unfold runLoop at h
    by_cases hg : s.finished.length < all.length
    · rw [if_pos hg] at h
      rcases hb : loopBody all prio s with s2 | s2 <;> rw [hb] at h
      · exact posInv_runLoop harr hsvc fuel s2 (engInv_loopBody inv s2 (Or.inl hb))
          (posInv_loopBody inv pos harr hsvc s2 (Or.inl hb)) h
      · cases h
        exact posInv_loopBody inv pos harr hsvc _ (Or.inr hb)
    · rw [if_neg hg] at h
      cases h
      exact pos

theorem posInv_initSt (m : ℕ) : PosInv (initSt m) := by
  refine ⟨le_refl 0, ?_, ?_⟩
  · intro x hx
    rw [List.eq_of_mem_replicate hx]
  · intro i hi p hp
    have h2 : (initSt m).logs.getD i [] = [] := by
      show (List.replicate m ([] : List (ℚ × ℚ))).getD i [] = []
      rcases lt_or_ge i m with him | him
      · rw [List.getD_eq_getElem?_getD, List.getElem?_replicate, if_pos him]
        rfl
      · rw [List.getD_eq_getElem?_getD, List.getElem?_replicate, if_neg (by omega)]
        rfl
    rw [h2] at hp
    simp at hp

/-! ## From engine states to scheduler outputs -/

theorem runLoop_inv_any {all : List Job} {m : ℕ} {prio : ℚ → Job → Job → Bool} :
    ∀ (fuel : ℕ) (s : St) {s' : St}, EngInv all m s →
      runLoop all prio fuel s = some s' → EngInv all m s'
  | 0, s => by
    intro inv h
    unfold runLoop at h
    by_cases hg : s.finished.length < all.length
    · rw [if_pos hg] at h
      cases h
    · rw [if_neg hg] at h
      cases h
      exact inv
  | fuel + 1, s => by
    intro inv h
    unfold runLoop at h
    by_cases hg : s.finished.length < all.length
    · rw [if_pos hg] at h
      rcases hb : loopBody all prio s with s2 | s2 <;> rw [hb] at h
      · exact runLoop_inv_any fuel s2 (engInv_loopBody inv s2 (Or.inl hb)) h
      · cases h
        exact engInv_loopBody inv _ (Or.inr hb)
    · rw [if_neg hg] at h
      cases h
      exact inv

theorem fallback_wf :
    ∀ (l : List Job) (s : St), (∀ j ∈ s.finished, JobWF j) →
      ∀ {s' : St}, fallbackLoop l s = some s' → ∀ j ∈ s'.finished, JobWF j
  | [], s => by
    intro hwf s' h
    cases h
    exact hwf
  | j :: l, s => by
    intro hwf s' h
    unfold fallbackLoop at h
    cases hp : findMinIdx s.coreFree with
    | none =>
      rw [hp] at h
      cases h
    | some p =>
      obtain ⟨i, ft⟩ := p
      rw [hp] at h
      refine fallback_wf l _ ?_ h
      intro j' hj'
      simp only [assignJob, List.mem_append, List.mem_singleton] at hj'
      rcases hj' with hj' | rfl
      · exact hwf j' hj'
      · exact ⟨max ft j.arrival, rfl, rfl, le_max_right _ _⟩

theorem engineRun_wf {jobs : List Job} {m : ℕ} {prio : ℚ → Job → Job → Bool} {s : St}
    (h : engineRun prio jobs m = some s) : ∀ j ∈ s.finished, JobWF j := by
  have hb : ((runLoop (sortByArrival jobs) prio
      (engineFuel (sortByArrival jobs).length m) (initSt m)).bind fun s1 =>
        fallbackLoop s1.ready { s1 with ready := [] }) = some s := h
  obtain ⟨s1, hrun, hfall⟩ := Option.bind_eq_some.1 hb
  have inv1 : EngInv (sortByArrival jobs) m s1 :=
    runLoop_inv_any _ _ (engInv_initSt _ m) hrun
  exact fallback_wf s1.ready { s1 with ready := [] } inv1.fin_wf hfall

theorem fcfs_fold_wf :
    ∀ (l : List Job) (s : St), (∀ j ∈ s.finished, JobWF j) →
      ∀ {s' : St}, l.foldlM fcfsStep s = some s' → ∀ j ∈ s'.finished, JobWF j
  | [], s => by
    intro hwf s' h
    cases h
    exact hwf
  | j :: l, s => by
    intro hwf s' h
    rw [List.foldlM_cons] at h
    cases hp : findMinIdx s.coreFree with
    | none =>
      rw [show fcfsStep s j = none by unfold fcfsStep; rw [hp]; rfl] at h
      exact Option.noConfusion h
    | some p =>
      obtain ⟨i, ft⟩ := p
      rw [show fcfsStep s j = some (assignJob i ft j s) by unfold fcfsStep; rw [hp]; rfl] at h
      refine fcfs_fold_wf l _ ?_ h
      intro j' hj'
      simp only [assignJob, List.mem_append, List.mem_singleton] at hj'
      rcases hj' with hj' | rfl
      · exact hwf j' hj'
      · exact ⟨max ft j.arrival, rfl, rfl, le_max_right _ _⟩

theorem fcfsRun_wf {jobs : List Job} {m : ℕ} {s : St}
    (h : fcfsRun jobs m = some s) : ∀ j ∈ s.finished, JobWF j :=
  fcfs_fold_wf (sortByArrival jobs) (initSt m) (by intro j hj; simp [initSt] at hj) h

theorem sortById_pairwise (l : List Job) :
    (sortById l).Pairwise fun a b => a.id ≤ b.id :=
  List.sorted_insertionSort _ l

theorem sortById_perm (l : List Job) : (sortById l).Perm l :=
  List.perm_insertionSort _ l

theorem sortByArrival_pairwise (l : List Job) :
    (sortByArrival l).Pairwise fun a b => a.arrival ≤ b.arrival :=
  List.sorted_insertionSort _ l

theorem pairwise_arrival_of_map_eq {l₁ l₂ : List Job}
    (hmap : l₁.map Job.arrival = l₂.map Job.arrival)
    (hp : l₂.Pairwise fun a b => a.arrival ≤ b.arrival) :
    l₁.Pairwise fun a b => a.arrival ≤ b.arrival := by
  have h2 : (l₂.map Job.arrival).Pairwise (fun a b : ℚ => a ≤ b) :=
    List.pairwise_map.2 hp
  rw [← hmap] at h2
  exact List.pairwise_map.1 h2

theorem fcfsRun_spec {jobs : List Job} {m : ℕ} (hm : 1 ≤ m) :
    ∃ s', fcfsRun jobs m = some s' ∧ FcfsInv m s' ∧
      stripMS s'.finished = stripMS jobs ∧
      s'.finished.map Job.arrival = (sortByArrival jobs).map Job.arrival := by
  obtain ⟨s', hfold, inv', hstrip, harr⟩ :=
    fcfs_fold hm (sortByArrival jobs) (initSt m) (fcfsInv_initSt m)
  refine ⟨s', hfold, inv', ?_, ?_⟩
  · rw [hstrip]
    have h0 : stripMS (initSt m).finished = 0 := rfl
    rw [h0, zero_add, stripMS_sortByArrival]
  · rw [harr]
    rfl

theorem schedule_fcfs_eq {jobs : List Job} {m : ℕ} {s' : St}
    (h : fcfsRun jobs m = some s') : schedule_fcfs jobs m = some s'.finished := by
  unfold schedule_fcfs
  rw [h]
  rfl

theorem schedule_sjf_eq {jobs : List Job} {m : ℕ} {s' : St}
    (h : engineRun sjfPrio jobs m = some s') :
    schedule_sjf jobs m = some (sortById s'.finished) := by
  unfold schedule_sjf
  rw [h]
  rfl

theorem schedule_hrrn_eq {jobs : List Job} {m : ℕ} {s' : St}
    (h : engineRun hrrnPrio jobs m = some s') :
    schedule_hrrn jobs m = some (sortById s'.finished) := by
  unfold schedule_hrrn
  rw [h]
  rfl

theorem exit_strip {jobs : List Job} {m : ℕ} {s' : St}
    (inv : EngInv (sortByArrival jobs) m s')
    (hready : s'.ready = []) (hidx : s'.idxNext = (sortByArrival jobs).length) :
    stripMS s'.finished = stripMS jobs := by
  have hc := inv.conserve
  rw [hready, hidx, List.drop_length] at hc
  have h1 : stripMS ([] : List Job) = 0 := rfl
  rw [h1, add_zero, add_zero] at hc
  rw [hc, stripMS_sortByArrival]

theorem mem_sortByArrival {l : List Job} {j : Job} : j ∈ sortByArrival l ↔ j ∈ l :=
  (List.perm_insertionSort _ l).mem_iff

theorem engineRun_spec {jobs : List Job} {m : ℕ} {prio : ℚ → Job → Job → Bool}
    (hm : 1 ≤ m) :
    ∃ s', engineRun prio jobs m = some s' ∧ EngInv (sortByArrival jobs) m s' ∧
      s'.ready = [] ∧ stripMS s'.finished = stripMS jobs := by
  obtain ⟨s', hrun, inv', hfin, hready, hidx, heng⟩ :=
    @engine_loop_exit jobs m prio hm
  have hE : { s' with ready := [] } = s' := by rw [← hready]
  rw [hE] at heng
  exact ⟨s', heng, inv', hready, exit_strip inv' hready hidx⟩

theorem engineRun_pos {jobs : List Job} {m : ℕ} {prio : ℚ → Job → Job → Bool}
    (hm : 1 ≤ m) (harr : ∀ j ∈ jobs, 0 ≤ j.arrival) (hsvc : ∀ j ∈ jobs, 0 ≤ j.service)
    {sE : St} (h : engineRun prio jobs m = some sE) : PosInv sE := by
  obtain ⟨s', hrun, inv', hfin, hready, hidx, heng⟩ :=
    @engine_loop_exit jobs m prio hm
  have hE : { s' with ready := [] } = s' := by rw [← hready]
  rw [hE] at heng
  obtain rfl : s' = sE := by
    rw [heng] at h
    exact Option.some.inj h
  refine posInv_runLoop ?_ ?_ _ _ (engInv_initSt _ m) (posInv_initSt m) hrun
  · intro j hj
    exact harr j (mem_sortByArrival.1 hj)
  · intro j hj
    exact hsvc j (mem_sortByArrival.1 hj)

/-! ## The claims -/

/-- C8: whenever the engine selects the core with the earliest free time (as
FCFS does for every job via `findMinIdx`, and as the SJF/HRRN leftover-ready
fallback does), the selected index attains the minimum free time and every
strictly smaller index has a strictly larger free time — i.e. ties among
equally early cores are broken by the lowest index. -/
theorem C8_earliest_core_lowest_index (cf : List ℚ) (hne : cf ≠ []) :
    ∃ i v, findMinIdx cf = some (i, v) ∧ i < cf.length ∧ cf.getD i 0 = v ∧
      (∀ j < cf.length, v ≤ cf.getD j 0) ∧ ∀ j < i, v < cf.getD j 0 := by
  obtain ⟨p, hp⟩ := Option.isSome_iff_exists.1 (findMinIdx_isSome hne)
  obtain ⟨i, v⟩ := p
  obtain ⟨h1, h2, h3, h4⟩ := findMinIdx_spec _ _ _ hp
  exact ⟨i, v, hp, h1, h2, h3, h4⟩

theorem C8_witness :
    ([2, 1, 1] : List ℚ) ≠ [] ∧
      ∃ i v, findMinIdx [2, 1, 1] = some (i, v) ∧ i < ([2, 1, 1] : List ℚ).length ∧
        ([2, 1, 1] : List ℚ).getD i 0 = v ∧
        (∀ j < ([2, 1, 1] : List ℚ).length, v ≤ ([2, 1, 1] : List ℚ).getD j 0) ∧
        ∀ j < i, v < ([2, 1, 1] : List ℚ).getD j 0 :=
  ⟨by simp, C8_earliest_core_lowest_index [2, 1, 1] (by simp)⟩

/-- C6: for every job list and `coreCount ≥ 1`, the event-driven main loop of
`schedule_sjf` and `schedule_hrrn` terminates: with the concrete fuel
`engineFuel` the loop reaches its own exit condition rather than running out
of fuel (each iteration either completes a job, admits a job, or strictly
advances the clock past an event point, and the measure `meas` decreases). -/
theorem C6_main_loop_terminates (jobs : List Job) (m : ℕ) (hm : 1 ≤ m) :
    (runLoop (sortByArrival jobs) sjfPrio
      (engineFuel (sortByArrival jobs).length m) (initSt m)).isSome ∧
    (runLoop (sortByArrival jobs) hrrnPrio
      (engineFuel (sortByArrival jobs).length m) (initSt m)).isSome := by
  constructor <;>
    exact Option.isSome_iff_exists.2
      (runLoop_total _ _ (engInv_initSt _ m) (meas_initSt_lt _ m))

theorem C6_witness :
    1 ≤ 1 ∧
      ((runLoop (sortByArrival sampleJobs) sjfPrio
        (engineFuel (sortByArrival sampleJobs).length 1) (initSt 1)).isSome ∧
      (runLoop (sortByArrival sampleJobs) hrrnPrio
        (engineFuel (sortByArrival sampleJobs).length 1) (initSt 1)).isSome) :=
  ⟨le_refl 1, C6_main_loop_terminates sampleJobs 1 (le_refl 1)⟩

/-- C7: for `coreCount ≥ 1` the main loop of SJF and HRRN completes every
job exactly once: at loop exit the ready set is empty, the completion list
holds exactly the input job multiset, and the post-loop leftover-ready
fallback never executes (the engine's final state is the loop's final
state unchanged). -/
theorem C7_loop_completes_every_job (jobs : List Job) (m : ℕ) (hm : 1 ≤ m) :
    (∃ s', runLoop (sortByArrival jobs) sjfPrio
        (engineFuel (sortByArrival jobs).length m) (initSt m) = some s' ∧
      s'.ready = [] ∧ s'.finished.length = (sortByArrival jobs).length ∧
      stripMS s'.finished = stripMS jobs ∧ engineRun sjfPrio jobs m = some s') ∧
    (∃ s', runLoop (sortByArrival jobs) hrrnPrio
        (engineFuel (sortByArrival jobs).length m) (initSt m) = some s' ∧
      s'.ready = [] ∧ s'.finished.length = (sortByArrival jobs).length ∧
      stripMS s'.finished = stripMS jobs ∧ engineRun hrrnPrio jobs m = some s') := by
  constructor
  all_goals
    obtain ⟨s', hrun, inv', hfin, hready, hidx, heng⟩ :=
      @engine_loop_exit jobs m _ hm
    have hE : { s' with ready := [] } = s' := by rw [← hready]
    rw [hE] at heng
    exact ⟨s', hrun, hready, hfin, exit_strip inv' hready hidx, heng⟩

theorem C7_witness :
    1 ≤ 1 ∧
      ((∃ s', runLoop (sortByArrival sampleJobs) sjfPrio
          (engineFuel (sortByArrival sampleJobs).length 1) (initSt 1) = some s' ∧
        s'.ready = [] ∧ s'.finished.length = (sortByArrival sampleJobs).length ∧
        stripMS s'.finished = stripMS sampleJobs ∧
        engineRun sjfPrio sampleJobs 1 = some s') ∧
      (∃ s', runLoop (sortByArrival sampleJobs) hrrnPrio
          (engineFuel (sortByArrival sampleJobs).length 1) (initSt 1) = some s' ∧
        s'.ready = [] ∧ s'.finished.length = (sortByArrival sampleJobs).length ∧
        stripMS s'.finished = stripMS sampleJobs ∧
        engineRun hrrnPrio sampleJobs 1 = some s')) :=
  ⟨le_refl 1, C7_loop_completes_every_job sampleJobs 1 (le_refl 1)⟩

/-- C10: for every job list (including the empty one) and `coreCount ≥ 1`,
all three schedulers return normally (`some`): no internal minimum-of-cores
lookup can fail because the core array is non-empty, the loop fuel suffices,
and the fallback never runs. -/
theorem C10_no_failure (jobs : List Job) (m : ℕ) (hm : 1 ≤ m) :
    (schedule_fcfs jobs m).isSome ∧ (schedule_sjf jobs m).isSome ∧
      (schedule_hrrn jobs m).isSome := by
  refine ⟨?_, ?_, ?_⟩
  · obtain ⟨s', hrun, _, _, _⟩ := @fcfsRun_spec jobs m hm
    rw [schedule_fcfs_eq hrun]
    rfl
  · obtain ⟨s', heng, _, _, _⟩ := @engineRun_spec jobs m sjfPrio hm
    rw [schedule_sjf_eq heng]
    rfl
  · obtain ⟨s', heng, _, _, _⟩ := @engineRun_spec jobs m hrrnPrio hm
    rw [schedule_hrrn_eq heng]
    rfl

theorem C10_witness :
    1 ≤ 1 ∧ ((schedule_fcfs [] 1).isSome ∧ (schedule_sjf [] 1).isSome ∧
      (schedule_hrrn [] 1).isSome) :=
  ⟨le_refl 1, C10_no_failure [] 1 (le_refl 1)⟩

/-- C2: every job in the output of any of the three schedulers has its times
set with `start ≥ arrival` and `end = start + service` exactly. -/
theorem C2_causality (jobs : List Job) (m : ℕ) (out : List Job)
    (h : schedule_fcfs jobs m = some out ∨ schedule_sjf jobs m = some out ∨
      schedule_hrrn jobs m = some out) :
    ∀ j ∈ out, ∃ st, j.start = some st ∧ j.arrival ≤ st ∧
      j.end_ = some (st + j.service) := by
  have hwf : ∀ j ∈ out, JobWF j := by
    rcases h with h | h | h
    · unfold schedule_fcfs at h
      cases hr : fcfsRun jobs m with
      | none =>
        rw [hr] at h
        cases h
      | some s' =>
        rw [hr, Option.map_some'] at h
        obtain rfl := Option.some.inj h
        exact fcfsRun_wf hr
    · unfold schedule_sjf at h
      cases hr : engineRun sjfPrio jobs m with
      | none =>
        rw [hr] at h
        cases h
      | some s' =>
        rw [hr, Option.map_some'] at h
        obtain rfl := Option.some.inj h
        intro j hj
        exact engineRun_wf hr j ((sortById_perm _).mem_iff.1 hj)
    · unfold schedule_hrrn at h
      cases hr : engineRun hrrnPrio jobs m with
      | none =>
        rw [hr] at h
        cases h
      | some s' =>
        rw [hr, Option.map_some'] at h
        obtain rfl := Option.some.inj h
        intro j hj
        exact engineRun_wf hr j ((sortById_perm _).mem_iff.1 hj)
  intro j hj
  obtain ⟨st, h1, h2, h3⟩ := hwf j hj
  exact ⟨st, h1, h3, h2⟩

theorem C2_witness :
    (schedule_fcfs sampleJobs 1 = some fcfsSampleOut ∨
      schedule_sjf sampleJobs 1 = some fcfsSampleOut ∨
      schedule_hrrn sampleJobs 1 = some fcfsSampleOut) ∧
    ∀ j ∈ fcfsSampleOut, ∃ st, j.start = some st ∧ j.arrival ≤ st ∧
      j.end_ = some (st + j.service) :=
  ⟨Or.inl (by decide!), C2_causality sampleJobs 1 fcfsSampleOut (Or.inl (by decide!))⟩

/-- Counterexample to C1 as stated: on two jobs where arrival order is the
reverse of id order, FCFS returns ids `[2, 1]`, which is not sorted by
ascending id (the source never re-sorts the FCFS result by id). -/
theorem C1_counterexample :
    (schedule_fcfs c1jobs 1).map (List.map Job.id) = some [2, 1] ∧
      ¬ List.Pairwise (fun a b : ℕ => a ≤ b) [2, 1] :=
  ⟨by decide!, by decide⟩

/-- C1 (amended): each scheduler returns exactly the input jobs (same ids,
arrivals and service times as a multiset, none dropped or duplicated), each
with `start`/`end` populated; SJF and HRRN return the list sorted by
ascending id, while FCFS returns it sorted by ascending arrival time. -/
theorem C1_exact_jobs_and_order (jobs : List Job) (m : ℕ) (hm : 1 ≤ m) :
    (∃ outF, schedule_fcfs jobs m = some outF ∧ stripMS outF = stripMS jobs ∧
      (∀ j ∈ outF, j.start.isSome ∧ j.end_.isSome) ∧
      outF.Pairwise fun a b => a.arrival ≤ b.arrival) ∧
    (∃ outS, schedule_sjf jobs m = some outS ∧ stripMS outS = stripMS jobs ∧
      (∀ j ∈ outS, j.start.isSome ∧ j.end_.isSome) ∧
      outS.Pairwise fun a b => a.id ≤ b.id) ∧
    (∃ outH, schedule_hrrn jobs m = some outH ∧ stripMS outH = stripMS jobs ∧
      (∀ j ∈ outH, j.start.isSome ∧ j.end_.isSome) ∧
      outH.Pairwise fun a b => a.id ≤ b.id) := by
  refine ⟨?_, ?_, ?_⟩
  · obtain ⟨s', hrun, inv', hstrip, hmap⟩ := @fcfsRun_spec jobs m hm
    refine ⟨s'.finished, schedule_fcfs_eq hrun, hstrip, ?_, ?_⟩
    · intro j hj
      obtain ⟨st, h1, h2, _⟩ := fcfsRun_wf hrun j hj
      rw [h1, h2]
      exact ⟨rfl, rfl⟩
    · exact pairwise_arrival_of_map_eq hmap (sortByArrival_pairwise jobs)
  · obtain ⟨s', heng, _, _, hstrip⟩ := @engineRun_spec jobs m sjfPrio hm
    refine ⟨sortById s'.finished, schedule_sjf_eq heng, ?_, ?_, sortById_pairwise _⟩
    · rw [stripMS_sortById, hstrip]
    · intro j hj
      obtain ⟨st, h1, h2, _⟩ := engineRun_wf heng j ((sortById_perm _).mem_iff.1 hj)
      rw [h1, h2]
      exact ⟨rfl, rfl⟩
  · obtain ⟨s', heng, _, _, hstrip⟩ := @engineRun_spec jobs m hrrnPrio hm
    refine ⟨sortById s'.finished, schedule_hrrn_eq heng, ?_, ?_, sortById_pairwise _⟩
    · rw [stripMS_sortById, hstrip]
    · intro j hj
      obtain ⟨st, h1, h2, _⟩ := engineRun_wf heng j ((sortById_perm _).mem_iff.1 hj)
      rw [h1, h2]
      exact ⟨rfl, rfl⟩

theorem C1_witness :
    1 ≤ 1 ∧
      ((∃ outF, schedule_fcfs sampleJobs 1 = some outF ∧
        stripMS outF = stripMS sampleJobs ∧
        (∀ j ∈ outF, j.start.isSome ∧ j.end_.isSome) ∧
        outF.Pairwise fun a b => a.arrival ≤ b.arrival) ∧
      (∃ outS, schedule_sjf sampleJobs 1 = some outS ∧
        stripMS outS = stripMS sampleJobs ∧
        (∀ j ∈ outS, j.start.isSome ∧ j.end_.isSome) ∧
        outS.Pairwise fun a b => a.id ≤ b.id) ∧
      (∃ outH, schedule_hrrn sampleJobs 1 = some outH ∧
        stripMS outH = stripMS sampleJobs ∧
        (∀ j ∈ outH, j.start.isSome ∧ j.end_.isSome) ∧
        outH.Pairwise fun a b => a.id ≤ b.id)) :=
  ⟨le_refl 1, C1_exact_jobs_and_order sampleJobs 1 (le_refl 1)⟩

/-- Counterexample to C4 as stated: on the worked example with one core, SJF
does not produce the spec's asserted schedule (job 3 at `[3,7)`, job 4 at
`[7,12)`, job 5 at `[12,14)`, job 2 at `[14,20)`); the actual starts are
job 1 at 0, job 2 at 3, job 3 at 11, job 4 at 15, job 5 at 9 — at `t = 3`
job 3 (arrival 4) has not yet arrived, so SJF runs job 2. -/
theorem C4_counterexample :
    schedule_sjf sampleJobs 1 ≠ some sjfClaimedOut ∧
      (schedule_sjf sampleJobs 1).map (List.map fun j => (j.id, j.start)) =
        some [(1, some 0), (2, some 3), (3, some 11), (4, some 15), (5, some 9)] :=
  ⟨by decide!, by decide!⟩

/-- C4 (amended): on jobs {(1,0,3),(2,2,6),(3,4,4),(4,6,5),(5,8,2)} with one
core, SJF runs job 1 over `[0,3)`; at `t = 3` only job 2 has arrived (job 3
arrives at `t = 4`), so job 2 runs `[3,9)`; then job 5 (shortest) `[9,11)`,
job 3 `[11,15)` and job 4 `[15,20)`. -/
theorem C4_sjf_actual_schedule : schedule_sjf sampleJobs 1 = some sjfActualOut := by
  decide!

theorem sched_out_wf {jobs : List Job} {m : ℕ} {out : List Job}
    (h : schedule_fcfs jobs m = some out ∨ schedule_sjf jobs m = some out ∨
      schedule_hrrn jobs m = some out) : ∀ j ∈ out, JobWF j := by
  rcases h with h | h | h
  · unfold schedule_fcfs at h
    cases hr : fcfsRun jobs m with
    | none =>
      rw [hr] at h
      cases h
    | some s' =>
      rw [hr, Option.map_some'] at h
      obtain rfl := Option.some.inj h
      exact fcfsRun_wf hr
  · unfold schedule_sjf at h
    cases hr : engineRun sjfPrio jobs m with
    | none =>
      rw [hr] at h
      cases h
    | some s' =>
      rw [hr, Option.map_some'] at h
      obtain rfl := Option.some.inj h
      intro j hj
      exact engineRun_wf hr j ((sortById_perm _).mem_iff.1 hj)
  · unfold schedule_hrrn at h
    cases hr : engineRun hrrnPrio jobs m with
    | none =>
      rw [hr] at h
      cases h
    | some s' =>
      rw [hr, Option.map_some'] at h
      obtain rfl := Option.some.inj h
      intro j hj
      exact engineRun_wf hr j ((sortById_perm _).mem_iff.1 hj)

theorem weighted_turnaround_of_some {j : Job} {t : ℚ} (ht : j.turnaround = some t)
    (hs : 0 < j.service) : j.weighted_turnaround = some (t / j.service) := by
  unfold Job.weighted_turnaround
  rw [ht]
  exact if_pos hs

theorem weighted_turnaround_of_some_neg {j : Job} {t : ℚ} (ht : j.turnaround = some t)
    (hs : ¬ 0 < j.service) : j.weighted_turnaround = none := by
  unfold Job.weighted_turnaround
  rw [ht]
  exact if_neg hs

theorem weighted_turnaround_of_none {j : Job} (ht : j.turnaround = none) :
    j.weighted_turnaround = none := by
  unfold Job.weighted_turnaround
  rw [ht]

theorem wturn_max_eq {j : Job} (hP : 0 ≤ j.turnaround.getD (-1)) (hs : 0 < j.service) :
    max (j.weighted_turnaround.getD (-1)) 0 = j.weighted_turnaround.getD 0 := by
  cases ht : j.turnaround with
  | none =>
    rw [ht] at hP
    norm_num at hP
  | some t =>
    have ht0 : 0 ≤ t := by
      rw [ht] at hP
      simpa using hP
    rw [weighted_turnaround_of_some ht hs]
    simp only [Option.getD_some]
    exact max_eq_left (div_nonneg ht0 (le_of_lt hs))

theorem wturn_max_zero {j : Job} (hs : ¬ 0 < j.service) :
    max (j.weighted_turnaround.getD (-1)) 0 = 0 := by
  cases ht : j.turnaround with
  | none =>
    rw [weighted_turnaround_of_none ht]
    norm_num
  | some t =>
    rw [weighted_turnaround_of_some_neg ht hs]
    norm_num

theorem agg_fold :
    ∀ (l : List Job) (acc : ℚ × ℚ × ℚ),
      l.foldl aggStep acc =
        (acc.1 + aggTurnSum l, acc.2.1 + aggWSum l, acc.2.2 + aggCount l)
  | [], acc => by
    simp [aggTurnSum, aggWSum, aggCount]
  | j :: l, acc => by
    rw [List.foldl_cons, agg_fold l]
    have hTS : aggTurnSum (j :: l) =
        (if 0 ≤ j.turnaround.getD (-1) then j.turnaround.getD (-1) else 0) +
          aggTurnSum l := by
      unfold aggTurnSum
      rw [List.filter_cons]
      by_cases hP : 0 ≤ j.turnaround.getD (-1) <;> simp [hP]
    have hC : aggCount (j :: l) =
        (if 0 ≤ j.turnaround.getD (-1) then 1 else 0) + aggCount l := by
      unfold aggCount
      rw [List.filter_cons]
      by_cases hP : 0 ≤ j.turnaround.getD (-1) <;> simp [hP] <;> push_cast <;> ring
    have hW : aggWSum (j :: l) =
        (if 0 ≤ j.turnaround.getD (-1) ∧ 0 < j.service then
          j.weighted_turnaround.getD 0 else 0) + aggWSum l := by
      unfold aggWSum
      rw [List.filter_cons]
      by_cases hP : 0 ≤ j.turnaround.getD (-1) <;> by_cases hs : 0 < j.service <;>
        simp [hP, hs]
    have hstep : aggStep acc j =
        if 0 ≤ j.turnaround.getD (-1) then
          (acc.1 + j.turnaround.getD (-1),
            acc.2.1 + max (j.weighted_turnaround.getD (-1)) 0, acc.2.2 + 1)
        else acc := rfl
    rw [hTS, hC, hW, hstep]
    by_cases hP : 0 ≤ j.turnaround.getD (-1)
    · by_cases hs : 0 < j.service
      · rw [if_pos hP, if_pos hP, if_pos hP, if_pos (⟨hP, hs⟩ : _ ∧ _),
          wturn_max_eq hP hs]
        refine Prod.ext ?_ (Prod.ext ?_ ?_) <;> simp <;> ring
      · rw [if_pos hP, if_pos hP, if_pos hP, if_neg (fun hc : _ ∧ _ => hs hc.2),
          wturn_max_zero hs]
        refine Prod.ext ?_ (Prod.ext ?_ ?_) <;> simp <;> ring
    · rw [if_neg hP, if_neg hP, if_neg hP, if_neg (fun hc : _ ∧ _ => hP hc.1)]
      refine Prod.ext ?_ (Prod.ext ?_ ?_) <;> simp

theorem aggCount_perm {l₁ l₂ : List Job} (h : l₁.Perm l₂) : aggCount l₁ = aggCount l₂ := by
  unfold aggCount
  rw [(h.filter _).length_eq]

theorem aggTurnSum_perm {l₁ l₂ : List Job} (h : l₁.Perm l₂) :
    aggTurnSum l₁ = aggTurnSum l₂ := by
  unfold aggTurnSum
  exact ((h.filter _).map _).sum_eq

theorem aggWSum_perm {l₁ l₂ : List Job} (h : l₁.Perm l₂) : aggWSum l₁ = aggWSum l₂ := by
  unfold aggWSum
  exact ((h.filter _).map _).sum_eq

theorem printAgg_eq {jobs : List Job} (hpos : 0 < aggCount jobs) :
    printAgg jobs = some (aggTurnSum jobs / aggCount jobs, aggWSum jobs / aggCount jobs) := by
  unfold printAgg
  rw [agg_fold]
  have hperm := sortById_perm jobs
  rw [aggCount_perm hperm, aggTurnSum_perm hperm, aggWSum_perm hperm]
  simp only [zero_add]
  rw [if_pos hpos]

/-- Counterexample to C5 as stated: FCFS on a 2-minute job and a zero-service
job (one core) gives the zero-service job valid times `[2,2)` and an
undefined weighted turnaround, as claimed — but the reported average weighted
turnaround is `(1 + 0) / 2 = 1/2`, dividing by the count of *all* jobs with
nonnegative turnaround, whereas the mean of `turnaround / service` over
exactly the positive-service jobs is `1`. -/
theorem C5_counterexample :
    schedule_fcfs c5jobs 1 = some c5out ∧
      (∀ j ∈ c5out, j.service ≤ 0 →
        j.start.isSome ∧ j.end_.isSome ∧ j.weighted_turnaround = none) ∧
      printAgg c5out = some (2, 1 / 2) ∧ specAvgWturn c5out = some 1 ∧
      ((1 : ℚ) / 2) ≠ 1 := by
  refine ⟨by decide!, by decide!, by decide!, by decide!, by norm_num⟩

/-- C5 (amended): a job with non-positive service still receives `start` and
`end` and appears in the output of every scheduler, and its weighted
turnaround is undefined (`none`); it is excluded from the weighted-sum
*numerator* (it contributes `0`) but it is still counted in the
*denominator*: the reported average weighted turnaround is the sum of
`turnaround / service` over the counted jobs with positive service, divided
by the count of all jobs with nonnegative turnaround. -/
theorem C5_weighted_turnaround_aggregation :
    (∀ j : Job, j.service ≤ 0 → j.weighted_turnaround = none) ∧
    (∀ (jobs : List Job) (m : ℕ) (out : List Job),
      (schedule_fcfs jobs m = some out ∨ schedule_sjf jobs m = some out ∨
        schedule_hrrn jobs m = some out) →
      ∀ j ∈ out, j.start.isSome ∧ j.end_.isSome) ∧
    ∀ jobs : List Job, 0 < aggCount jobs →
      printAgg jobs = some (aggTurnSum jobs / aggCount jobs,
        aggWSum jobs / aggCount jobs) := by
  refine ⟨?_, ?_, fun jobs h => printAgg_eq h⟩
  · intro j hsvc
    cases ht : j.turnaround with
    | none => exact weighted_turnaround_of_none ht
    | some t => exact weighted_turnaround_of_some_neg ht (not_lt.2 hsvc)
  · intro jobs m out h j hj
    obtain ⟨st, h1, h2, _⟩ := sched_out_wf h j hj
    rw [h1, h2]
    exact ⟨rfl, rfl⟩

theorem C5_witness :
    (0 < aggCount c5out) ∧
      printAgg c5out = some (aggTurnSum c5out / aggCount c5out,
        aggWSum c5out / aggCount c5out) :=
  ⟨by decide!, C5_weighted_turnaround_aggregation.2.2 c5out (by decide!)⟩

/-- Counterexample to C3 as stated: on `c3jobs` with two cores, at `t = 1`
core 1 is still busy until `1 + 5e-10`, but the `1e-9` tolerance counts it as
free, so it receives a second job starting at `1`: its log holds the two
overlapping intervals `[0, 1 + 5e-10)` and `[1, 3/2)` (the instant `1` lies
in both), and three jobs are running at `t = 1` although `coreCount = 2`. -/
theorem C3_counterexample :
    (schedule_sjf c3jobs 2).map (fun out => (out.filter (runningAt 1)).length) =
      some 3 ∧
    ¬ (3 ≤ 2) ∧
    (engineRun sjfPrio c3jobs 2).map (fun s => s.logs.getD 1 []) =
      some [(0, 2000000001 / 2000000000), (1, 3 / 2)] ∧
    ((0 : ℚ) ≤ 1 ∧ (1 : ℚ) < 2000000001 / 2000000000) ∧
    ((1 : ℚ) ≤ 1 ∧ (1 : ℚ) < 3 / 2) :=
  ⟨by decide!, by decide, by decide!, by norm_num, by norm_num⟩

/-- C3 (amended): for `service ≥ 0` inputs, FCFS gives every single core
pairwise non-overlapping intervals `[start, end)` and at no instant do more
than `coreCount` jobs run; for SJF/HRRN (any priority function) the `1e-9`
tolerance weakens this to consecutive same-core assignments satisfying
`next.start ≥ prev.end - 1e-9` — exact non-overlap and the exact capacity
bound fail by up to the tolerance (see the counterexample). -/
theorem C3_per_core_non_overlap (jobs : List Job) (m : ℕ) (hm : 1 ≤ m) :
    ((∀ j ∈ jobs, 0 ≤ j.service) →
      ∃ s', fcfsRun jobs m = some s' ∧ schedule_fcfs jobs m = some s'.finished ∧
        (∀ i < m, (s'.logs.getD i []).Pairwise fun p q => p.2 ≤ q.1) ∧
        ∀ t : ℚ, (s'.finished.filter (runningAt t)).length ≤ m) ∧
    ∀ (prio : ℚ → Job → Job → Bool) (s' : St), engineRun prio jobs m = some s' →
      ∀ i < m, (s'.logs.getD i []).Chain' fun p q => p.2 - eps ≤ q.1 := by
  constructor
  · intro hsvc
    obtain ⟨s', hrun, inv', _, _⟩ := @fcfsRun_spec jobs m hm
    have hpos : FcfsPos s' :=
      fcfsPos_fold (sortByArrival jobs) (initSt m) (fcfsInv_initSt m) (fcfsPos_initSt m)
        (fun j hj => hsvc j (mem_sortByArrival.1 hj)) s' hrun
    have hpair : ∀ i < m, (s'.logs.getD i []).Pairwise fun p q => p.2 ≤ q.1 := by
      intro i him
      have hil : i < s'.logs.length := by rw [inv'.logs_len]; exact him
      refine pairwise_of_chain_exact (inv'.logs_chain i him) ?_
      intro p hp
      exact (hpos.logs0 i hil p hp).2
    refine ⟨s', hrun, schedule_fcfs_eq hrun, hpair, ?_⟩
    intro t
    refine capacity_of_logs inv'.logs_len ?_ inv'.fin_logs inv'.fin_wf t
    intro L hL
    obtain ⟨i, hi, hLi⟩ := List.getElem_of_mem hL
    have hgd : s'.logs.getD i [] = L := by
      rw [List.getD_eq_getElem?_getD, List.getElem?_eq_getElem hi, hLi]
      rfl
    rw [← hgd]
    exact hpair i (by rw [← inv'.logs_len]; exact hi)
  · intro prio s' heng i him
    obtain ⟨s'', heng', inv'', _, _⟩ := @engineRun_spec jobs m prio hm
    obtain rfl : s'' = s' := by
      rw [heng'] at heng
      exact Option.some.inj heng
    exact inv''.logs_chain i him

theorem C3_witness :
    1 ≤ 1 ∧
      (((∀ j ∈ sampleJobs, 0 ≤ j.service) →
        ∃ s', fcfsRun sampleJobs 1 = some s' ∧
          schedule_fcfs sampleJobs 1 = some s'.finished ∧
          (∀ i < 1, (s'.logs.getD i []).Pairwise fun p q => p.2 ≤ q.1) ∧
          ∀ t : ℚ, (s'.finished.filter (runningAt t)).length ≤ 1) ∧
      ∀ (prio : ℚ → Job → Job → Bool) (s' : St),
        engineRun prio sampleJobs 1 = some s' →
        ∀ i < 1, (s'.logs.getD i []).Chain' fun p q => p.2 - eps ≤ q.1) :=
  ⟨le_refl 1, C3_per_core_non_overlap sampleJobs 1 (le_refl 1)⟩

/-- Counterexample to C9 as stated: on `c9jobs` with two cores, core 1 first
runs a job ending at `1 + 5e-10`; at `t = 1` the tolerance counts it as free
and it receives a zero-service job whose end is `1`, so the update sets its
tracked free time from `1 + 5e-10` back to `1` — a strict regression. -/
theorem C9_counterexample :
    (engineRun sjfPrio c9jobs 2).map (fun s => (s.logs.getD 1 []).map Prod.snd) =
      some [2000000001 / 2000000000, 1] ∧
    ¬ ((2000000001 / 2000000000 : ℚ) ≤ 1) :=
  ⟨by decide!, by norm_num⟩

/-- C9 (amended): for inputs with nonnegative arrivals and service times,
each core's tracked free time starts at `0`; under FCFS every update is
exactly non-decreasing, while under SJF/HRRN (any priority function) an
update can regress by at most the `1e-9` tolerance: the per-core sequence of
free-time values `0, end₁, end₂, …` satisfies `next ≥ prev - 1e-9`. -/
theorem C9_core_free_monotone (jobs : List Job) (m : ℕ) (hm : 1 ≤ m)
    (harr : ∀ j ∈ jobs, 0 ≤ j.arrival) (hsvc : ∀ j ∈ jobs, 0 ≤ j.service) :
    (∃ s', fcfsRun jobs m = some s' ∧ ∀ i < m,
      (0 :: (s'.logs.getD i []).map Prod.snd).Chain' fun a b : ℚ => a ≤ b) ∧
    ∀ (prio : ℚ → Job → Job → Bool) (s' : St), engineRun prio jobs m = some s' →
      ∀ i < m,
        (0 :: (s'.logs.getD i []).map Prod.snd).Chain' fun a b : ℚ => a - eps ≤ b := by
  constructor
  · obtain ⟨s', hrun, inv', _, _⟩ := @fcfsRun_spec jobs m hm
    have hpos : FcfsPos s' :=
      fcfsPos_fold (sortByArrival jobs) (initSt m) (fcfsInv_initSt m) (fcfsPos_initSt m)
        (fun j hj => hsvc j (mem_sortByArrival.1 hj)) s' hrun
    refine ⟨s', hrun, ?_⟩
    intro i him
    have hil : i < s'.logs.length := by rw [inv'.logs_len]; exact him
    have hchain0 : (s'.logs.getD i []).Chain' fun p q => p.2 - 0 ≤ q.1 :=
      (inv'.logs_chain i him).imp fun a b hab => by linarith
    have := chain_ends (le_refl 0) hchain0 fun p hp => hpos.logs0 i hil p hp
    exact this.imp fun a b hab => by linarith
  · intro prio s' heng i him
    obtain ⟨s'', heng', inv'', _, _⟩ := @engineRun_spec jobs m prio hm
    obtain rfl : s'' = s' := by
      rw [heng'] at heng
      exact Option.some.inj heng
    exact chain_ends (le_of_lt eps_pos) (inv''.logs_chain i him)
      fun p hp => (engineRun_pos hm harr hsvc heng).logs0 i
        (by rw [inv''.logs_len]; exact him) p hp

theorem C9_witness :
    (1 ≤ 1 ∧ (∀ j ∈ sampleJobs, 0 ≤ j.arrival) ∧ (∀ j ∈ sampleJobs, 0 ≤ j.service)) ∧
      ((∃ s', fcfsRun sampleJobs 1 = some s' ∧ ∀ i < 1,
        (0 :: (s'.logs.getD i []).map Prod.snd).Chain' fun a b : ℚ => a ≤ b) ∧
      ∀ (prio : ℚ → Job → Job → Bool) (s' : St),
        engineRun prio sampleJobs 1 = some s' → ∀ i < 1,
          (0 :: (s'.logs.getD i []).map Prod.snd).Chain' fun a b : ℚ => a - eps ≤ b) :=
  ⟨⟨le_refl 1, by decide!, by decide!⟩,
    C9_core_free_monotone sampleJobs 1 (le_refl 1) (by decide!) (by decide!)⟩
